import Mathlib

/-!
Verification development for the AutoUV unwrapping core
(`part1_cpp`: topology builder, seam detector, island extractor,
LSCM parameterizer, island packer).

The C++ sources are shallowly embedded: pure numeric code is translated to
executable Lean functions over `ℚ` (exact arithmetic stands in for IEEE
floats; the claims under study are about control flow, set/graph structure
and exact algebraic relations, not rounding), machine `int` values are
embedded as `ℤ`, and the three subroutines whose values are irrational in
exact arithmetic (the square-root based edge-sharpness and angular-defect
scores, and Eigen's `SparseLU` factor/solve) are abstracted as oracle
parameters, exactly at their call boundaries.  `printf` diagnostics are
modelled as an explicit event log.
-/

namespace AutoUV

/-- A triangle mesh as handed to the C core: `vertices` is the `N×3`
position buffer (row `i` is vertex `i`), `triangles` the `M×3` index
buffer (row `f` is face `f`); indices are C `int`s, hence `ℤ`. -/
structure Mesh where
  vertices : List (ℚ × ℚ × ℚ)
  triangles : List (ℤ × ℤ × ℤ)
deriving Repr, DecidableEq

def Mesh.numVertices (m : Mesh) : ℤ := m.vertices.length
def Mesh.numTriangles (m : Mesh) : ℤ := m.triangles.length

/-- Fetch face `f`'s three vertex indices (buffer read `tris[3f..3f+2]`). -/
def Mesh.tri (m : Mesh) (f : ℕ) : ℤ × ℤ × ℤ := m.triangles.getD f (0, 0, 0)

/-- Fetch vertex `g`'s position (buffer read `vertices[3g..3g+2]`). -/
def Mesh.pos (m : Mesh) (g : ℤ) : ℚ × ℚ × ℚ :=
  m.vertices.getD g.toNat (0, 0, 0)

/-! ## Topology builder (`topology.cpp`) -/

/-- `struct EdgeInfo`: the one or two adjacent faces of an edge,
`-1` meaning absent. -/
structure EdgeInfo where
  face0 : ℤ
  face1 : ℤ
deriving Repr, DecidableEq

/-- Diagnostics printed by the builder: the invalid-index warning and the
non-manifold-edge warning. -/
inductive TopoEvent where
  | invalidTri (f : ℕ)
  | nonManifold (v0 v1 : ℤ) (f : ℕ)
deriving Repr, DecidableEq

/-- `struct Edge`'s constructor: canonical unordered key, smaller vertex
first. -/
def mkEdgeKey (a b : ℤ) : ℤ × ℤ := if a < b then (a, b) else (b, a)

/-- `std::map<Edge, EdgeInfo>` embedded as an association list in key
order is not needed for the accumulation itself; we keep insertion order
here and sort when converting to arrays, which yields the same final map
contents and the same array order as iterating the ordered C++ map. -/
abbrev EdgeMap := List ((ℤ × ℤ) × EdgeInfo)

/-- `edge_map[key]` followed by the face0/face1/`else warn` update at
lines 122–130 of `topology.cpp`: default-construct the entry if absent,
record the face in the first free slot, log (and drop) a third face. -/
def insertEdge (st : EdgeMap × List TopoEvent) (key : ℤ × ℤ) (f : ℕ) :
    EdgeMap × List TopoEvent :=
  match st.1.lookup key with
  | none => (st.1 ++ [(key, ⟨(f : ℤ), -1⟩)], st.2)
  | some info =>
      if info.face0 = -1 then
        (st.1.map fun kv => if kv.1 = key then (key, ⟨(f : ℤ), info.face1⟩) else kv, st.2)
      else if info.face1 = -1 then
        (st.1.map fun kv => if kv.1 = key then (key, ⟨info.face0, (f : ℤ)⟩) else kv, st.2)
      else
        (st.1, st.2 ++ [.nonManifold key.1 key.2 f])

/-- One iteration of the face loop of `build_topology` (lines 94–132):
skip (with a warning) a face with an out-of-range index, otherwise insert
its three edges, silently dropping degenerate `a == b` edges. -/
def insertTriEdge (f : ℕ) (acc : EdgeMap × List TopoEvent) (ab : ℤ × ℤ) :
    EdgeMap × List TopoEvent :=
  if ab.1 = ab.2 then acc
  else insertEdge acc (mkEdgeKey ab.1 ab.2) f

def processFace (V : ℤ) (st : EdgeMap × List TopoEvent) (ft : ℕ × (ℤ × ℤ × ℤ)) :
    EdgeMap × List TopoEvent :=
  if ft.2.1 < 0 ∨ V ≤ ft.2.1 ∨ ft.2.2.1 < 0 ∨ V ≤ ft.2.2.1 ∨ ft.2.2.2 < 0 ∨ V ≤ ft.2.2.2 then
    (st.1, st.2 ++ [.invalidTri ft.1])
  else
    [(ft.2.1, ft.2.2.1), (ft.2.2.1, ft.2.2.2), (ft.2.2.2, ft.2.1)].foldl
      (insertTriEdge ft.1) st

/-- Key order of `std::map<Edge, EdgeInfo>`: `Edge::operator<` is
lexicographic on `(v0, v1)`; `edgeKeyLe` is its reflexive closure, used
as the merge-sort comparator (on the map's distinct keys, sorting by the
closure reproduces the strict iteration order exactly). -/
@[reducible] def edgeKeyLe (a b : ℤ × ℤ) : Prop :=
  a.1 < b.1 ∨ (a.1 = b.1 ∧ a.2 ≤ b.2)

/-- The arrays stored in `TopologyInfo`, plus the diagnostic log. -/
structure TopologyInfo where
  edges : List (ℤ × ℤ)
  edgeFaces : List (ℤ × ℤ)
  log : List TopoEvent
deriving Repr, DecidableEq

/-- The edge map and log accumulated over the whole face loop of
`build_topology`. -/
def topoAccum (m : Mesh) : EdgeMap × List TopoEvent :=
  (List.range m.triangles.length).zip m.triangles |>.foldl
    (processFace m.numVertices) ([], [])

/-- The accumulated map in the iteration (key) order of the C++
`std::map` (its keys are distinct, so sorting by the reflexive closure of
`Edge::operator<` reproduces that order exactly). -/
def topoSorted (m : Mesh) : EdgeMap :=
  (topoAccum m).1.insertionSort fun a b => edgeKeyLe a.1 b.1

/-- `build_topology`: accumulate the edge map over all faces, then emit
the entries in ascending key order. The `V ≤ 0`/`F ≤ 0` early-out returns
the empty topology. -/
def build_topology (m : Mesh) : TopologyInfo :=
  if m.numVertices ≤ 0 ∨ m.numTriangles ≤ 0 then ⟨[], [], []⟩
  else
    ⟨(topoSorted m).map Prod.fst,
     (topoSorted m).map fun kv => (kv.2.face0, kv.2.face1),
     (topoAccum m).2⟩

/-- The keys currently stored in the edge map. -/
def edgeKeys (m : EdgeMap) : List (ℤ × ℤ) := m.map Prod.fst

/-- A mesh whose single triangle repeats vertex `1` (a degenerate
triangle with all indices in range). -/
def meshDegenTri : Mesh := ⟨[(0, 0, 0), (1, 0, 0)], [(0, 1, 1)]⟩

/-- A well-formed single-triangle mesh. -/
def meshOneTri : Mesh := ⟨[(0, 0, 0), (1, 0, 0), (0, 1, 0)], [(0, 1, 2)]⟩

/-! ## Island extractor (`unwrap.cpp`, `extract_islands`) -/

/-- The face-adjacency lists of `extract_islands` (lines 70–84): for each
edge index `e` in ascending order, skip seam edges, and when both adjacent
faces are distinct from `-1` append each face to the other's list. -/
def extractAdj (edgeFaces : List (ℤ × ℤ)) (seams : List ℤ) : ℤ → List ℤ :=
  edgeFaces.enum.foldl
    (fun adj p =>
      if (p.1 : ℤ) ∈ seams then adj
      else if p.2.1 ≠ -1 ∧ p.2.2 ≠ -1 then
        let adj1 := fun w => if w = p.2.1 then adj w ++ [p.2.2] else adj w
        fun w => if w = p.2.2 then adj1 w ++ [p.2.1] else adj1 w
      else adj)
    (fun _ => [])

/-- Visiting one dequeued face's neighbor `v` (lines 100–105): an
unvisited neighbor is labelled with the current island id and enqueued. -/
def bfsStep (c : ℤ) (acc : List ℤ × (ℤ → ℤ)) (v : ℤ) : List ℤ × (ℤ → ℤ) :=
  if acc.2 v = -1 then (acc.1 ++ [v], fun w => if w = v then c else acc.2 w)
  else acc

/-- The BFS queue loop (lines 96–107).  `fuel` bounds the number of
dequeues; `extract_islands` passes enough fuel for the queue to drain
(each enqueue stems from one adjacency-list entry, so dequeues are at
most `1 + 2·num_edges`). -/
def bfsLoop (adj : ℤ → List ℤ) (c : ℤ) : ℕ → List ℤ → (ℤ → ℤ) → (ℤ → ℤ)
  | 0, _, ids => ids
  | _ + 1, [], ids => ids
  | fuel + 1, u :: q, ids =>
    let st := (adj u).foldl (bfsStep c) (q, ids)
    bfsLoop adj c fuel st.1 st.2

/-- One iteration of the outer root loop (lines 88–108): an unvisited
start face founds island `island_count`, is labelled, and its component
is flooded by BFS; the count then increments. -/
def extractStep (adj : ℤ → List ℤ) (fuel : ℕ) (st : (ℤ → ℤ) × ℤ) (s : ℕ) :
    (ℤ → ℤ) × ℤ :=
  if st.1 (s : ℤ) = -1 then
    (bfsLoop adj st.2 fuel [(s : ℤ)]
      (fun w => if w = (s : ℤ) then st.2 else st.1 w), st.2 + 1)
  else st

/-- `extract_islands`: the face→island-id map (`-1` initialized) and the
island count. -/
def extract_islands (mesh : Mesh) (topo : TopologyInfo) (seams : List ℤ) :
    (ℤ → ℤ) × ℤ :=
  let F := mesh.triangles.length
  let adj := extractAdj topo.edgeFaces seams
  (List.range F).foldl (extractStep adj (F + 2 * topo.edgeFaces.length + 1))
    ((fun _ => -1), 0)


/-! ## Seam detector (`seam_detection.cpp`) -/

/-- The faces stored for edge `e` (buffer read `edge_faces[2e..2e+1]`). -/
def edgeF (edgeFaces : List (ℤ × ℤ)) (e : ℕ) : ℤ × ℤ := edgeFaces.getD e (-1, -1)

/-- Dual-graph adjacency (lines 183–191): one `(edge, neighbor-face)`
entry per shared edge whose two faces are valid (`0 ≤ f < F`), appended
in ascending edge order. -/
def dualAdjRaw (edgeFaces : List (ℤ × ℤ)) (F : ℤ) : ℤ → List (ℕ × ℤ) :=
  edgeFaces.enum.foldl
    (fun adj p =>
      if 0 ≤ p.2.1 ∧ 0 ≤ p.2.2 ∧ p.2.1 < F ∧ p.2.2 < F then
        let adj1 := fun w => if w = p.2.1 then adj w ++ [(p.1, p.2.2)] else adj w
        fun w => if w = p.2.2 then adj1 w ++ [(p.1, p.2.1)] else adj1 w
      else adj)
    (fun _ => [])

/-- Each face's neighbor list sorted ascending by edge sharpness
(lines 194–202).  `std::sort` leaves the order of cost ties unspecified;
the stable sort here fixes one of the admissible orders. -/
def dualAdjSorted (sharp : ℤ → ℤ → ℚ) (edgeFaces : List (ℤ × ℤ)) (F : ℤ) :
    ℤ → List (ℕ × ℤ) := fun f =>
  (dualAdjRaw edgeFaces F f).insertionSort fun a b => sharp f a.2 ≤ sharp f b.2

/-- `std::set<int>` insertion keeping the list sorted without
duplicates. -/
def setInsert (e : ℕ) : List ℕ → List ℕ
  | [] => [e]
  | x :: xs => if e < x then e :: x :: xs else if e = x then x :: xs else x :: setInsert e xs

/-- Set-semantics insertion into the spanning-tree edge set (iteration
order of `tree_edges` is never consumed, so a plain dedup-append
suffices). -/
def treeInsert (e : ℕ) (t : List ℕ) : List ℕ := if e ∈ t then t else t ++ [e]

/-- Visiting one dequeued face's sorted neighbor entry during the
spanning-tree BFS (lines 218–227): an unvisited neighbor is marked, the
connecting edge joins the tree, and the neighbor is enqueued. -/
def treeStep (acc : List ℤ × (ℤ → Bool) × List ℕ) (p : ℕ × ℤ) :
    List ℤ × (ℤ → Bool) × List ℕ :=
  if acc.2.1 p.2 then acc
  else (acc.1 ++ [p.2], fun w => if w = p.2 then true else acc.2.1 w,
        treeInsert p.1 acc.2.2)

/-- The spanning-tree BFS queue loop (lines 209–229); fuel as in
`bfsLoop`. -/
def treeBfs (adj : ℤ → List (ℕ × ℤ)) :
    ℕ → List ℤ → (ℤ → Bool) → List ℕ → (ℤ → Bool) × List ℕ
  | 0, _, vis, tree => (vis, tree)
  | _ + 1, [], vis, tree => (vis, tree)
  | fuel + 1, u :: q, vis, tree =>
    let st := (adj u).foldl treeStep (q, vis, tree)
    treeBfs adj fuel st.1 st.2.1 st.2.2

/-- The spanning-tree edge set: BFS from face `0`, which is marked
visited before the loop starts. -/
def seamTree (mesh : Mesh) (topo : TopologyInfo) (sharp : ℤ → ℤ → ℚ) : List ℕ :=
  (treeBfs (dualAdjSorted sharp topo.edgeFaces (mesh.triangles.length : ℤ))
    (mesh.triangles.length + 2 * topo.edgeFaces.length + 1) [0]
    (fun w => w = 0) []).2

/-- Non-tree, non-boundary seam candidates (lines 233–244): edge indices
whose two faces are both `≥ 0` and that are not spanning-tree edges, in
ascending order. -/
def seamNonTree (mesh : Mesh) (topo : TopologyInfo) (sharp : ℤ → ℤ → ℚ) : List ℕ :=
  (topo.edgeFaces.enum.filter fun p =>
    ¬ (p.2.1 < 0 ∨ p.2.2 < 0) ∧ p.1 ∉ seamTree mesh topo sharp).map Prod.fst

/-- The sharpness of candidate edge `e`: `get_edge_sharpness` applied to
the edge's two stored faces. -/
def edgeSharp (topo : TopologyInfo) (sharp : ℤ → ℤ → ℚ) (e : ℕ) : ℚ :=
  sharp (edgeF topo.edgeFaces e).1 (edgeF topo.edgeFaces e).2

/-- One iteration of the sharpness filter: keep `e` when its sharpness
exceeds the fixed `0.5` cutoff. -/
def filterStep (topo : TopologyInfo) (sharp : ℤ → ℤ → ℚ) (s : List ℕ) (e : ℕ) :
    List ℕ :=
  if edgeSharp topo sharp e > 1/2 then setInsert e s else s

/-- The sharpness filter (lines 252–261): retain candidates with
sharpness `> 0.5`. -/
def seamFiltered (mesh : Mesh) (topo : TopologyInfo) (sharp : ℤ → ℤ → ℚ) : List ℕ :=
  (seamNonTree mesh topo sharp).foldl (filterStep topo sharp) []

/-- The running argmax state of a strict-greater scan; `none` stands for
the C++ sentinel index `-1` (the score sentinel stays `-1`). -/
def bestStep {α : Type} (g : α → ℚ) (acc : Option α × ℚ) (e : α) : Option α × ℚ :=
  if g e > acc.2 then (some e, g e) else acc

/-- The fallback argmax scan (lines 266–273). -/
def seamBest (topo : TopologyInfo) (sharp : ℤ → ℤ → ℚ) (ntE : List ℕ) :
    Option ℕ × ℚ :=
  ntE.foldl (bestStep (edgeSharp topo sharp)) (none, -1)

/-- Candidates after the force-select fallback (lines 264–275). -/
def seamAfterFallback (mesh : Mesh) (topo : TopologyInfo) (sharp : ℤ → ℤ → ℚ) : List ℕ :=
  let c0 := seamFiltered mesh topo sharp
  if c0 = [] ∧ seamNonTree mesh topo sharp ≠ [] then
    match (seamBest topo sharp (seamNonTree mesh topo sharp)).1 with
    | some b => setInsert b c0
    | none => c0
  else c0

/-- `get_vertex_edges` (lines 114–132): indices of the topology edges
touching vertex `v`, ascending. -/
def vertexEdges (edges : List (ℤ × ℤ)) (v : ℤ) : List ℕ :=
  (edges.enum.filter fun p => p.2.1 = v ∨ p.2.2 = v).map Prod.fst

/-- Promotion of one incident edge during the defect refinement: only
edges already in the non-tree candidate list are inserted. -/
def refineInner (ntE : List ℕ) (s : List ℕ) (e : ℕ) : List ℕ :=
  if e ∈ ntE then setInsert e s else s

/-- One vertex of the defect refinement: when the vertex's angular defect
exceeds `0.5` radians, promote its incident non-tree edges. -/
def refineStep (topo : TopologyInfo) (ntE : List ℕ) (defect : ℤ → ℚ)
    (s : List ℕ) (v : ℕ) : List ℕ :=
  if defect (v : ℤ) > 1/2 then
    (vertexEdges topo.edges (v : ℤ)).foldl (refineInner ntE) s
  else s

/-- The angular-defect refinement (lines 280–298): for every vertex with
defect above `0.5`, promote its incident non-tree edges to seams. -/
def seamRefined (mesh : Mesh) (topo : TopologyInfo) (sharp : ℤ → ℤ → ℚ)
    (defect : ℤ → ℚ) : List ℕ :=
  (List.range mesh.vertices.length).foldl
    (refineStep topo (seamNonTree mesh topo sharp) defect)
    (seamAfterFallback mesh topo sharp)

/-- `detect_seams`: the returned seam edge indices in ascending order
(`[]` models the `NULL, *num_seams_out = 0` returns).  `sharp` stands for
`get_edge_sharpness(mesh, ·, ·)` and `defect` for
`compute_angular_defect(mesh, ·)`, both irrational-valued in exact
arithmetic; `angleThreshold` is accepted and — like the C parameter after
its `(void)` cast — never read. -/
def detect_seams (mesh : Mesh) (topo : TopologyInfo) (sharp : ℤ → ℤ → ℚ)
    (defect : ℤ → ℚ) (angleThreshold : ℚ) : List ℕ :=
  if mesh.triangles.length = 0 ∨ topo.edgeFaces.length = 0 then []
  else if seamNonTree mesh topo sharp = [] then []
  else if seamRefined mesh topo sharp defect = [] then []
  else seamRefined mesh topo sharp defect


/-! ## LSCM normalization (`lscm.cpp`, `normalize_uvs_to_unit_square`) -/

/-- Minimum over a list, seeded by the first element (the C code's
`FLT_MAX` seed followed by `min_float` over all entries computes exactly
this for a non-empty buffer). -/
def listMin : List ℚ → ℚ
  | [] => 0
  | x :: xs => xs.foldl min x

/-- Maximum over a list, seeded by the first element (`-FLT_MAX` seed). -/
def listMax : List ℚ → ℚ
  | [] => 0
  | x :: xs => xs.foldl max x

def minU (uvs : List (ℚ × ℚ)) : ℚ := listMin (uvs.map Prod.fst)
def maxU (uvs : List (ℚ × ℚ)) : ℚ := listMax (uvs.map Prod.fst)
def minV (uvs : List (ℚ × ℚ)) : ℚ := listMin (uvs.map Prod.snd)
def maxV (uvs : List (ℚ × ℚ)) : ℚ := listMax (uvs.map Prod.snd)

/-- The `1e-6` degeneracy cutoff of the normalizer. -/
def uvEps : ℚ := mkRat 1 1000000

/-- Raw and clamped axis ranges (lines 146–150: a range below `1e-6` is
replaced by `1.0`). -/
def uRange0 (uvs : List (ℚ × ℚ)) : ℚ := maxU uvs - minU uvs
def vRange0 (uvs : List (ℚ × ℚ)) : ℚ := maxV uvs - minV uvs
def uRange (uvs : List (ℚ × ℚ)) : ℚ := if uRange0 uvs < uvEps then 1 else uRange0 uvs
def vRange (uvs : List (ℚ × ℚ)) : ℚ := if vRange0 uvs < uvEps then 1 else vRange0 uvs

/-- `normalize_uvs_to_unit_square` (lines 129–176): bounding box, aspect
test `aspect > 4 ∨ aspect < 0.25`, then uniform scaling by the larger
range (extreme case) or independent per-axis scaling (normal case); the
minimum corner moves to the origin in both cases. -/
def normalize_uvs_to_unit_square (uvs : List (ℚ × ℚ)) : List (ℚ × ℚ) :=
  if uvs = [] then uvs
  else
    let ur := uRange uvs
    let vr := vRange uvs
    let aspect := ur / vr
    if aspect > 4 ∨ aspect < 1/4 then
      let mr := if ur > vr then ur else vr
      uvs.map fun p => ((p.1 - minU uvs) / mr, (p.2 - minV uvs) / mr)
    else
      uvs.map fun p => ((p.1 - minU uvs) / ur, (p.2 - minV uvs) / vr)


/-! ## LSCM boundary detection, pinning and solve (`lscm.cpp`) -/

/-- The three vertex indices of face `f` in corner order. -/
def triVerts (mesh : Mesh) (f : ℕ) : List ℤ := [(mesh.tri f).1, (mesh.tri f).2.1, (mesh.tri f).2.2]

/-- The island's `local_to_global` array: global vertex indices in
first-seen order while iterating the supplied face list
(`lscm_parameterize` lines 239–249; `unwrap_mesh` builds the same map at
lines 231–242).  `global_to_local g` is the position of `g` in this
list. -/
def islandVerts (mesh : Mesh) (faces : List ℕ) : List ℤ :=
  faces.foldl
    (fun l f => (triVerts mesh f).foldl (fun l2 g => if g ∈ l2 then l2 else l2 ++ [g]) l)
    []

/-- The island's edge keys in face-loop order, canonicalized lower index
first (`find_boundary_vertices` lines 89–103; note a degenerate `a = b`
edge keeps the key `(a, a)` here). -/
def islandKeys (mesh : Mesh) (faces : List ℕ) : List (ℤ × ℤ) :=
  faces.bind fun f =>
    [mkEdgeKey (mesh.tri f).1 (mesh.tri f).2.1,
     mkEdgeKey (mesh.tri f).2.1 (mesh.tri f).2.2,
     mkEdgeKey (mesh.tri f).2.2 (mesh.tri f).1]

/-- `edge_counts[{a, b}]++`: default-construct at `0` then increment. -/
def bumpEdge (m : List ((ℤ × ℤ) × ℕ)) (key : ℤ × ℤ) : List ((ℤ × ℤ) × ℕ) :=
  match m.lookup key with
  | none => m ++ [(key, 1)]
  | some n => m.map fun kv => if kv.1 = key then (key, n + 1) else kv

/-- The island's edge-use counts (`std::map<std::pair<int,int>, int>`). -/
def islandEdgeCounts (mesh : Mesh) (faces : List ℕ) : List ((ℤ × ℤ) × ℕ) :=
  (islandKeys mesh faces).foldl bumpEdge []

/-- `std::set<int>` insertion over `ℤ`, keeping the list sorted without
duplicates. -/
def setInsertZ (x : ℤ) : List ℤ → List ℤ
  | [] => [x]
  | y :: ys => if x < y then x :: y :: ys else if x = y then y :: ys else y :: setInsertZ x ys

/-- `find_boundary_vertices` (lines 69–127): both endpoints of every edge
used exactly once enter the boundary set; the returned array is the set's
ascending iteration order. -/
def find_boundary_vertices (mesh : Mesh) (faces : List ℕ) : List ℤ :=
  (islandEdgeCounts mesh faces).foldl
    (fun s kv => if kv.2 = 1 then setInsertZ kv.1.2 (setInsertZ kv.1.1 s) else s)
    []

/-- `dot(diff, diff)` for the positions of vertices `a` and `b`: the
squared Euclidean distance used by the pin search (lines 360–376). -/
def sqDist (mesh : Mesh) (a b : ℤ) : ℚ :=
  ((mesh.pos a).1 - (mesh.pos b).1) * ((mesh.pos a).1 - (mesh.pos b).1) +
  ((mesh.pos a).2.1 - (mesh.pos b).2.1) * ((mesh.pos a).2.1 - (mesh.pos b).2.1) +
  ((mesh.pos a).2.2 - (mesh.pos b).2.2) * ((mesh.pos a).2.2 - (mesh.pos b).2.2)

/-- The ordered pairs `(l[i], l[j])`, `i < j`, scanned by the nested pin
loops. -/
def pairsOf : List ℤ → List (ℤ × ℤ)
  | [] => []
  | x :: xs => (xs.map fun y => (x, y)) ++ pairsOf xs

/-- Pin selection (lines 350–383): with at least two boundary vertices,
the strictly-improving scan over ordered pairs picks a farthest pair and
maps it to local indices; otherwise local pins `0` and `(0 + 1) % n`. -/
def pinPair (mesh : Mesh) (faces : List ℕ) : ℕ × ℕ :=
  if 2 ≤ (find_boundary_vertices mesh faces).length then
    match ((pairsOf (find_boundary_vertices mesh faces)).foldl
        (bestStep fun pr => sqDist mesh pr.1 pr.2) (none, -1)).1 with
    | some pr => ((islandVerts mesh faces).indexOf pr.1, (islandVerts mesh faces).indexOf pr.2)
    | none => (0, 0)
  else (0, (0 + 1) % (islandVerts mesh faces).length)

/-- `Eigen::setFromTriplets` semantics: the matrix entry is the sum of
all triplets at that position. -/
def matFromTriplets (ts : List (ℕ × ℕ × ℚ)) (i j : ℕ) : ℚ :=
  ts.foldl (fun a t => if t.1 = i ∧ t.2.1 = j then a + t.2.2 else a) 0

/-- The row-zeroing loop (lines 399–408): every stored entry whose row is
pinned has its value set to `0`. -/
def zeroPinnedRows (ts : List (ℕ × ℕ × ℚ)) (pins : List ℕ) : List (ℕ × ℕ × ℚ) :=
  ts.map fun t => if t.1 ∈ pins then (t.1, t.2.1, 0) else t

/-- `A.coeffRef(idx, idx) = 1.0` on the compressed matrix. -/
def setDiagOne (A : ℕ → ℕ → ℚ) (idx : ℕ) : ℕ → ℕ → ℚ :=
  fun i j => if i = idx ∧ j = idx then 1 else A i j

/-- `b[idx] = x` on the dense right-hand side. -/
def writeVec (b : ℕ → ℚ) (i : ℕ) (x : ℚ) : ℕ → ℚ := fun j => if j = i then x else b j

/-- The four pinned row indices `2·pin1, 2·pin1+1, 2·pin2, 2·pin2+1`. -/
def pinnedIdx (p1 p2 : ℕ) : List ℕ := [2 * p1, 2 * p1 + 1, 2 * p2, 2 * p2 + 1]

/-- The system matrix after boundary conditions (lines 395–419): rows of
the pinned indices zeroed, then unit diagonal entries written in
`p = 0..3` order.  (`A.prune(0.0, 1e-12)` afterwards only drops stored
exact zeros, which leaves the matrix unchanged as a function.) -/
def pinnedMatrix (ts : List (ℕ × ℕ × ℚ)) (p1 p2 : ℕ) : ℕ → ℕ → ℚ :=
  setDiagOne (setDiagOne (setDiagOne (setDiagOne
    (matFromTriplets (zeroPinnedRows ts (pinnedIdx p1 p2)))
    (2 * p1)) (2 * p1 + 1)) (2 * p2)) (2 * p2 + 1)

/-- The right-hand side after boundary conditions: zero vector, then the
targets `0, 0, 1, 0` written at the pinned indices in `p = 0..3` order. -/
def pinnedRhs (p1 p2 : ℕ) : ℕ → ℚ :=
  writeVec (writeVec (writeVec (writeVec (fun _ => 0)
    (2 * p1) 0) (2 * p1 + 1) 0) (2 * p2) 1) (2 * p2 + 1) 0

/-- The eight LSCM energy triplets of one directed edge `va → vb` with
projected edge vector `(dx, dy)` and triangle weight `area`
(lines 299–339). -/
def edgeTerms (va vb : ℕ) (dx dy area : ℚ) : List (ℕ × ℕ × ℚ) :=
  [(2 * va, 2 * vb, area * dx), (2 * va, 2 * vb + 1, area * dy),
   (2 * va + 1, 2 * vb, area * dy), (2 * va + 1, 2 * vb + 1, area * (-dx)),
   (2 * va, 2 * va, -area * dx), (2 * va, 2 * va + 1, -area * dy),
   (2 * va + 1, 2 * va, -area * dy), (2 * va + 1, 2 * va + 1, -area * (-dx))]

/-- One triangle's contribution to the energy matrix (lines 272–341).
`frame p0 p1 p2 = ((q1_x, q1_y), (q2_x, q2_y))` abstracts the
square-root-based projection onto the triangle's plane (`q0` is the
origin); the signed-area weight and the cutoff `area < 1e-10` are exact.
A degenerate triangle contributes nothing. -/
def triTriplets (frame : (ℚ × ℚ × ℚ) → (ℚ × ℚ × ℚ) → (ℚ × ℚ × ℚ) → ((ℚ × ℚ) × (ℚ × ℚ)))
    (mesh : Mesh) (verts : List ℤ) (f : ℕ) : List (ℕ × ℕ × ℚ) :=
  let t := mesh.tri f
  let v0 := verts.indexOf t.1
  let v1 := verts.indexOf t.2.1
  let v2 := verts.indexOf t.2.2
  let q := frame (mesh.pos t.1) (mesh.pos t.2.1) (mesh.pos t.2.2)
  let area := |q.1.1 * q.2.2 - q.1.2 * q.2.1| / 2
  if area < mkRat 1 10000000000 then []
  else
    edgeTerms v0 v1 (q.1.1 - 0) (q.1.2 - 0) area ++
    edgeTerms v1 v2 (q.2.1 - q.1.1) (q.2.2 - q.1.2) area ++
    edgeTerms v2 v0 (0 - q.2.1) (0 - q.2.2) area

/-- The full triplet list over the island's faces. -/
def assembleTriplets (frame : (ℚ × ℚ × ℚ) → (ℚ × ℚ × ℚ) → (ℚ × ℚ × ℚ) → ((ℚ × ℚ) × (ℚ × ℚ)))
    (mesh : Mesh) (faces : List ℕ) : List (ℕ × ℕ × ℚ) :=
  faces.bind (triTriplets frame mesh (islandVerts mesh faces))

/-- `lscm_parameterize` (lines 178–450). `solver A b dim` abstracts
`SparseLU` factor-and-solve and returns `none` on either failure.  The
function returns `none` (the C `NULL`) for an empty face list, an island
with fewer than three distinct vertices, or a solver failure; otherwise
the solution is reshaped into per-local-vertex UV pairs and normalized. -/
def lscm_parameterize
    (frame : (ℚ × ℚ × ℚ) → (ℚ × ℚ × ℚ) → (ℚ × ℚ × ℚ) → ((ℚ × ℚ) × (ℚ × ℚ)))
    (solver : (ℕ → ℕ → ℚ) → (ℕ → ℚ) → ℕ → Option (ℕ → ℚ))
    (mesh : Mesh) (faces : List ℕ) : Option (List (ℚ × ℚ)) :=
  if faces = [] then none
  else if (islandVerts mesh faces).length < 3 then none
  else
    match solver
        (pinnedMatrix (assembleTriplets frame mesh faces)
          (pinPair mesh faces).1 (pinPair mesh faces).2)
        (pinnedRhs (pinPair mesh faces).1 (pinPair mesh faces).2)
        (2 * (islandVerts mesh faces).length) with
    | none => none
    | some x =>
        some (normalize_uvs_to_unit_square
          ((List.range (islandVerts mesh faces).length).map fun i => (x (2 * i), x (2 * i + 1))))

/-! ## Per-island loop of `unwrap_mesh` (`unwrap.cpp`, lines 205–247) -/

/-- `copy_island_uvs` (lines 119–151): for every corner of every island
face, look the global index up in the island's `global_to_local` map and
overwrite that vertex's UV with the island solution. -/
def copyIslandUVs (mesh : Mesh) (faces : List ℕ) (iuvs : List (ℚ × ℚ))
    (uvs : ℤ → ℚ × ℚ) : ℤ → ℚ × ℚ :=
  faces.foldl
    (fun u f =>
      (triVerts mesh f).foldl
        (fun u2 g =>
          if g ∈ islandVerts mesh faces then
            fun w => if w = g then iuvs.getD ((islandVerts mesh faces).indexOf g) (0, 0) else u2 w
          else u2)
        u)
    uvs

/-- The faces labelled with island id `k` (lines 211–216). -/
def islandFaces (mesh : Mesh) (ids : ℤ → ℤ) (k : ℕ) : List ℕ :=
  (List.range mesh.triangles.length).filter fun f => ids (f : ℤ) = (k : ℤ)

/-- One island of the STEP-4 loop: skip small islands, call the island
parameterizer (`paramFn` stands for `lscm_parameterize(mesh, faces, n)`),
copy the solved UVs on success, and leave the buffer untouched on
failure. -/
def processIsland (mesh : Mesh) (ids : ℤ → ℤ) (minFaces : ℤ)
    (paramFn : List ℕ → Option (List (ℚ × ℚ))) (uvs : ℤ → ℚ × ℚ) (k : ℕ) :
    ℤ → ℚ × ℚ :=
  if ((islandFaces mesh ids k).length : ℤ) < minFaces then uvs
  else
    match paramFn (islandFaces mesh ids k) with
    | none => uvs
    | some iuvs => copyIslandUVs mesh (islandFaces mesh ids k) iuvs uvs

/-- The whole STEP-4 loop over island ids `0 … num_islands − 1`, starting
from the `calloc`-zeroed UV buffer. -/
def processIslands (mesh : Mesh) (ids : ℤ → ℤ) (numIslands : ℕ) (minFaces : ℤ)
    (paramFn : List ℕ → Option (List (ℚ × ℚ))) : ℤ → ℚ × ℚ :=
  (List.range numIslands).foldl (processIsland mesh ids minFaces paramFn) (fun _ => (0, 0))

/-- Two disjoint triangles: a two-island example. -/
def meshTwoTri : Mesh :=
  ⟨[(0, 0, 0), (1, 0, 0), (0, 1, 0), (5, 0, 0), (6, 0, 0), (5, 1, 0)],
   [(0, 1, 2), (3, 4, 5)]⟩

/-- A tetrahedron: a closed mesh whose dual graph has cycles, so non-tree
seam candidates exist. -/
def tetraMesh : Mesh :=
  ⟨[(0, 0, 0), (1, 0, 0), (0, 1, 0), (0, 0, 1)],
   [(0, 1, 2), (0, 1, 3), (0, 2, 3), (1, 2, 3)]⟩

/-! ## `pack_uv_islands` (`packing.cpp`, lines 34–241)

The UV buffer is a total function `ℤ → ℚ × ℚ`; the imperative loops over
`v = 0 … V-1` become pointwise transformations guarded by the index range.
The `FLT_MAX` / `-FLT_MAX` bounding-box sentinels (lines 89–92, tested at
line 122) are modeled by `Option`: `none` is the untouched sentinel box,
and the first real sample seeds the box exactly as `min(FLT_MAX, u)` /
`max(-FLT_MAX, u)` do on finite floats.  `sqrtf` (line 167) is an oracle
parameter.  `std::sort` (lines 146–150) is not stable; the embedding
fixes the tie order by stable insertion sort on the same comparator, and
nothing proven below depends on the tie order. -/

/-- STEP 1a (lines 87–117): per-island UV bounding boxes
`(min_u, max_u, min_v, max_v)` accumulated over the corners of every face
whose island id lies in `[0, num_islands)`. -/
def packBounds (mesh : Mesh) (ids : ℤ → ℤ) (numIslands : ℕ) (uvs : ℤ → ℚ × ℚ) :
    ℕ → Option (ℚ × ℚ × ℚ × ℚ) :=
  (List.range mesh.triangles.length).foldl
    (fun b (f : ℕ) =>
      if 0 ≤ ids (f : ℤ) ∧ ids (f : ℤ) < (numIslands : ℤ) then
        (triVerts mesh f).foldl
          (fun b2 g => fun i =>
            if i = (ids (f : ℤ)).toNat then
              match b2 i with
              | none => some ((uvs g).1, (uvs g).1, (uvs g).2, (uvs g).2)
              | some r =>
                  some (min r.1 (uvs g).1, max r.2.1 (uvs g).1,
                        min r.2.2.1 (uvs g).2, max r.2.2.2 (uvs g).2)
            else b2 i)
          b
      else b)
    (fun _ => none)

/-- STEP 1b (lines 120–129): `(width, height)` of an island, `(0, 0)` for
an island whose box is still the sentinel. -/
def packDims (bounds : ℕ → Option (ℚ × ℚ × ℚ × ℚ)) (i : ℕ) : ℚ × ℚ :=
  match bounds i with
  | none => (0, 0)
  | some r => (r.2.1 - r.1, r.2.2.2 - r.2.2.1)

/-- Total margin-padded area of the non-empty islands (lines 131–138). -/
def packTotalArea (bounds : ℕ → Option (ℚ × ℚ × ℚ × ℚ)) (margin : ℚ) (n : ℕ) : ℚ :=
  (List.range n).foldl
    (fun a i =>
      match bounds i with
      | none => a
      | some _ => a + ((packDims bounds i).1 + margin) * ((packDims bounds i).2 + margin))
    0

/-- The sort comparator of lines 146–150: island `a` precedes island `b`
when `b`'s height does not exceed `a`'s. -/
@[reducible] def heightGe (bounds : ℕ → Option (ℚ × ℚ × ℚ × ℚ)) (a b : ℕ) : Prop :=
  (packDims bounds b).2 ≤ (packDims bounds a).2

/-- STEP 2 (lines 143–150): island indices sorted by height descending. -/
def packOrder (bounds : ℕ → Option (ℚ × ℚ × ℚ × ℚ)) (n : ℕ) : List ℕ :=
  List.insertionSort (heightGe bounds) (List.range n)

/-- The shelf-packing loop state (lines 153–157 and the per-island
`target_x`/`target_y` slots). -/
structure ShelfState where
  cx : ℚ
  cy : ℚ
  sh : ℚ
  maxW : ℚ
  maxH : ℚ
  targets : ℕ → ℚ × ℚ

/-- One iteration of the shelf loop (lines 173–195).  In the overflow
branch the trailing `if (isl.height > shelf_height)` of line 194 compares
the island's height with itself (the shelf was just reset to it at line
182), so the shelf height stays that island's height. -/
def shelfStep (bounds : ℕ → Option (ℚ × ℚ × ℚ × ℚ)) (margin BIN : ℚ)
    (st : ShelfState) (idx : ℕ) : ShelfState :=
  if (packDims bounds idx).1 = 0 then st
  else if BIN < st.cx + (packDims bounds idx).1 then
    { cx := (packDims bounds idx).1 + margin
      cy := st.cy + st.sh + margin
      sh := (packDims bounds idx).2
      maxW := max st.maxW ((packDims bounds idx).1 + margin)
      maxH := max st.maxH (st.cy + st.sh + margin + (packDims bounds idx).2)
      targets := fun i => if i = idx then (0, st.cy + st.sh + margin) else st.targets i }
  else
    { cx := st.cx + (packDims bounds idx).1 + margin
      cy := st.cy
      sh := if st.sh < (packDims bounds idx).2 then (packDims bounds idx).2 else st.sh
      maxW := max st.maxW (st.cx + (packDims bounds idx).1 + margin)
      maxH := max st.maxH (st.cy + (packDims bounds idx).2)
      targets := fun i => if i = idx then (st.cx, st.cy) else st.targets i }

/-- The initial shelf state: zero cursor and the first sorted island's
height as the starting shelf height (lines 153–157, 169–171). -/
def shelfInit (bounds : ℕ → Option (ℚ × ℚ × ℚ × ℚ)) (order : List ℕ) : ShelfState :=
  { cx := 0, cy := 0,
    sh := match order with
      | [] => 0
      | i :: _ => (packDims bounds i).2,
    maxW := 0, maxH := 0, targets := fun _ => (0, 0) }

/-- `BIN_WIDTH` (line 167): `sqrt(total_area)` when the area is positive,
else `1`. -/
def packBIN (sqrtQ : ℚ → ℚ) (totalArea : ℚ) : ℚ :=
  if 0 < totalArea then sqrtQ totalArea else 1

/-- STEP 3 assembled: the shelf loop over the sorted islands. -/
def packState (sqrtQ : ℚ → ℚ) (mesh : Mesh) (ids : ℤ → ℤ) (numIslands : ℕ)
    (margin : ℚ) (uvs : ℤ → ℚ × ℚ) : ShelfState :=
  (packOrder (packBounds mesh ids numIslands uvs) numIslands).foldl
    (shelfStep (packBounds mesh ids numIslands uvs) margin
      (packBIN sqrtQ (packTotalArea (packBounds mesh ids numIslands uvs) margin numIslands)))
    (shelfInit (packBounds mesh ids numIslands uvs)
      (packOrder (packBounds mesh ids numIslands uvs) numIslands))

/-- The per-island offset `target − box minimum` (lines 206–208).  An
island whose box is the untouched sentinel labels no face, so the `none`
branch is never consulted by the loop below (an id `≥ num_islands` reads
out of bounds in the C code). -/
def packOff (bounds : ℕ → Option (ℚ × ℚ × ℚ × ℚ)) (targets : ℕ → ℚ × ℚ) (i : ℕ) : ℚ × ℚ :=
  match bounds i with
  | none => targets i
  | some r => ((targets i).1 - r.1, (targets i).2 - r.2.2.1)

/-- STEP 4a (lines 198–217): first-wins per-vertex offsets.  A vertex
keeps the offset of the first face (in face order) with a non-negative
island id that references it; `vert_seen` records which vertices got one. -/
def packSeenOffs (mesh : Mesh) (ids : ℤ → ℤ) (bounds : ℕ → Option (ℚ × ℚ × ℚ × ℚ))
    (targets : ℕ → ℚ × ℚ) : (ℤ → Bool) × (ℤ → ℚ × ℚ) :=
  (List.range mesh.triangles.length).foldl
    (fun sv (f : ℕ) =>
      if 0 ≤ ids (f : ℤ) then
        (triVerts mesh f).foldl
          (fun sv2 g =>
            if sv2.1 g = true then sv2
            else
              (fun w => if w = g then true else sv2.1 w,
               fun w => if w = g then packOff bounds targets (ids (f : ℤ)).toNat else sv2.2 w))
          sv
      else sv)
    (fun _ => false, fun _ => (0, 0))

/-- STEP 4b (lines 219–224): add each seen in-range vertex's offset to its
UV. -/
def packOffsetUVs (sqrtQ : ℚ → ℚ) (mesh : Mesh) (ids : ℤ → ℤ) (numIslands : ℕ)
    (margin : ℚ) (uvs : ℤ → ℚ × ℚ) (v : ℤ) : ℚ × ℚ :=
  if 0 ≤ v ∧ v < mesh.numVertices ∧
      (packSeenOffs mesh ids (packBounds mesh ids numIslands uvs)
        (packState sqrtQ mesh ids numIslands margin uvs).targets).1 v = true then
    ((uvs v).1 + ((packSeenOffs mesh ids (packBounds mesh ids numIslands uvs)
        (packState sqrtQ mesh ids numIslands margin uvs).targets).2 v).1,
     (uvs v).2 + ((packSeenOffs mesh ids (packBounds mesh ids numIslands uvs)
        (packState sqrtQ mesh ids numIslands margin uvs).targets).2 v).2)
  else uvs v

/-- `max(final_w, final_h)` (lines 228–231). -/
def packMaxDim (sqrtQ : ℚ → ℚ) (mesh : Mesh) (ids : ℤ → ℤ) (numIslands : ℕ)
    (margin : ℚ) (uvs : ℤ → ℚ × ℚ) : ℚ :=
  max (packState sqrtQ mesh ids numIslands margin uvs).maxW
    (packState sqrtQ mesh ids numIslands margin uvs).maxH

/-- STEP 5's scale (lines 227–234): `1 / max_dim` when `max_dim > 1e-6`,
else the initial `1`. -/
def packScale (sqrtQ : ℚ → ℚ) (mesh : Mesh) (ids : ℤ → ℤ) (numIslands : ℕ)
    (margin : ℚ) (uvs : ℤ → ℚ × ℚ) : ℚ :=
  if mkRat 1 1000000 < packMaxDim sqrtQ mesh ids numIslands margin uvs then
    1 / packMaxDim sqrtQ mesh ids numIslands margin uvs
  else 1

/-- `pack_uv_islands` (lines 34–241): no-op when `num_islands ≤ 1`
(line 39); otherwise every in-range vertex's offset-stage UV is multiplied
by the final scale (lines 236–239), unconditionally. -/
def pack_uv_islands (sqrtQ : ℚ → ℚ) (mesh : Mesh) (ids : ℤ → ℤ) (numIslands : ℕ)
    (margin : ℚ) (uvs : ℤ → ℚ × ℚ) (v : ℤ) : ℚ × ℚ :=
  if numIslands ≤ 1 then uvs v
  else if 0 ≤ v ∧ v < mesh.numVertices then
    (packScale sqrtQ mesh ids numIslands margin uvs *
       (packOffsetUVs sqrtQ mesh ids numIslands margin uvs v).1,
     packScale sqrtQ mesh ids numIslands margin uvs *
       (packOffsetUVs sqrtQ mesh ids numIslands margin uvs v).2)
  else packOffsetUVs sqrtQ mesh ids numIslands margin uvs v

end AutoUV

/-! ## Theorems: topology builder -/

namespace AutoUV

lemma lookup_some_mem {m : EdgeMap} {key : ℤ × ℤ} {v : EdgeInfo}
    (h : m.lookup key = some v) : key ∈ edgeKeys m := by
  induction m with
  | nil => simp [List.lookup] at h
  | cons hd tl ih =>
    obtain ⟨k, i⟩ := hd
    by_cases hk : k = key
    · subst hk; simp [edgeKeys]
    · have hb : (key == k) = false := beq_eq_false_iff_ne.mpr (Ne.symm hk)
      simp only [List.lookup, hb] at h
      simpa [edgeKeys] using Or.inr (ih h)

lemma lookup_none_not_mem {m : EdgeMap} {key : ℤ × ℤ}
    (h : m.lookup key = none) : key ∉ edgeKeys m := by
  induction m with
  | nil => simp [edgeKeys]
  | cons hd tl ih =>
    obtain ⟨k, i⟩ := hd
    by_cases hk : k = key
    · subst hk; simp [List.lookup] at h
    · have hb : (key == k) = false := beq_eq_false_iff_ne.mpr (Ne.symm hk)
      simp only [List.lookup, hb] at h
      simp only [edgeKeys, List.map_cons, List.mem_cons, not_or]
      exact ⟨Ne.symm hk, by simpa [edgeKeys] using ih h⟩

lemma insertEdge_keys (st : EdgeMap × List TopoEvent) (key : ℤ × ℤ) (f : ℕ) :
    edgeKeys (insertEdge st key f).1 = edgeKeys st.1 ∨
    (st.1.lookup key = none ∧
      edgeKeys (insertEdge st key f).1 = edgeKeys st.1 ++ [key]) := by
  cases h : st.1.lookup key with
  | none => exact Or.inr ⟨rfl, by simp [insertEdge, h, edgeKeys]⟩
  | some info =>
    refine Or.inl ?_
    have hmap : ∀ i' : EdgeInfo,
        edgeKeys (st.1.map fun kv => if kv.1 = key then (key, i') else kv)
          = edgeKeys st.1 := by
      intro i'
      simp only [edgeKeys, List.map_map]
      refine List.map_congr_left ?_
      intro kv _
      by_cases hkv : kv.1 = key <;> simp [hkv]
    by_cases h0 : info.face0 = -1
    · simpa [insertEdge, h, h0] using hmap ⟨(f : ℤ), info.face1⟩
    · by_cases h1 : info.face1 = -1
      · simpa [insertEdge, h, h0, h1] using hmap ⟨info.face0, (f : ℤ)⟩
      · simp [insertEdge, h, h0, h1]

lemma insertEdge_keys_mono {st : EdgeMap × List TopoEvent} {key : ℤ × ℤ} {f : ℕ}
    {k : ℤ × ℤ} (h : k ∈ edgeKeys st.1) : k ∈ edgeKeys (insertEdge st key f).1 := by
  rcases insertEdge_keys st key f with heq | ⟨_, heq⟩ <;> simp [heq, h]

lemma insertEdge_self_mem (st : EdgeMap × List TopoEvent) (key : ℤ × ℤ) (f : ℕ) :
    key ∈ edgeKeys (insertEdge st key f).1 := by
  cases h : st.1.lookup key with
  | none => simp [insertEdge, h, edgeKeys]
  | some info =>
    have hk := lookup_some_mem h
    rcases insertEdge_keys st key f with heq | ⟨hnone, _⟩
    · rwa [heq]
    · rw [hnone] at h; cases h

lemma insertTriEdge_keys_mono {f : ℕ} {acc : EdgeMap × List TopoEvent} {ab : ℤ × ℤ}
    {k : ℤ × ℤ} (h : k ∈ edgeKeys acc.1) : k ∈ edgeKeys (insertTriEdge f acc ab).1 := by
  unfold insertTriEdge
  split
  · exact h
  · exact insertEdge_keys_mono h

lemma processFace_keys_mono {V : ℤ} {st : EdgeMap × List TopoEvent}
    {ft : ℕ × (ℤ × ℤ × ℤ)} {k : ℤ × ℤ}
    (h : k ∈ edgeKeys st.1) : k ∈ edgeKeys (processFace V st ft).1 := by
  unfold processFace
  split
  · exact h
  · simp only [List.foldl]
    exact insertTriEdge_keys_mono (insertTriEdge_keys_mono (insertTriEdge_keys_mono h))

lemma foldl_processFace_keys_mono {V : ℤ} {l : List (ℕ × (ℤ × ℤ × ℤ))}
    {st : EdgeMap × List TopoEvent} {k : ℤ × ℤ}
    (h : k ∈ edgeKeys st.1) : k ∈ edgeKeys (l.foldl (processFace V) st).1 := by
  induction l generalizing st with
  | nil => exact h
  | cons hd tl ih => exact ih (processFace_keys_mono h)

/-- The two well-formedness invariants of the accumulating edge map:
all keys are strictly increasing pairs, and keys are pairwise distinct. -/
def EdgeMapWF (m : EdgeMap) : Prop :=
  (∀ k ∈ edgeKeys m, k.1 < k.2) ∧ (edgeKeys m).Nodup

lemma mkEdgeKey_lt {a b : ℤ} (h : a ≠ b) : (mkEdgeKey a b).1 < (mkEdgeKey a b).2 := by
  unfold mkEdgeKey
  split <;> omega

lemma insertEdge_wf {st : EdgeMap × List TopoEvent} {key : ℤ × ℤ} {f : ℕ}
    (hkey : key.1 < key.2) (h : EdgeMapWF st.1) : EdgeMapWF (insertEdge st key f).1 := by
  rcases insertEdge_keys st key f with heq | ⟨hnone, heq⟩
  · exact ⟨heq ▸ h.1, heq ▸ h.2⟩
  · constructor
    · rw [heq]
      intro k hk
      rcases List.mem_append.1 hk with hk | hk
      · exact h.1 k hk
      · simp at hk; subst hk; exact hkey
    · rw [heq]
      have := lookup_none_not_mem hnone
      simpa [List.nodup_append] using ⟨h.2, this⟩

lemma insertTriEdge_wf {f : ℕ} {acc : EdgeMap × List TopoEvent} {ab : ℤ × ℤ}
    (h : EdgeMapWF acc.1) : EdgeMapWF (insertTriEdge f acc ab).1 := by
  unfold insertTriEdge
  split
  · exact h
  · exact insertEdge_wf (mkEdgeKey_lt (by assumption)) h

lemma processFace_wf {V : ℤ} {st : EdgeMap × List TopoEvent} {ft : ℕ × (ℤ × ℤ × ℤ)}
    (h : EdgeMapWF st.1) : EdgeMapWF (processFace V st ft).1 := by
  unfold processFace
  split
  · exact h
  · simp only [List.foldl]
    exact insertTriEdge_wf (insertTriEdge_wf (insertTriEdge_wf h))

lemma foldl_processFace_wf {V : ℤ} {l : List (ℕ × (ℤ × ℤ × ℤ))}
    {st : EdgeMap × List TopoEvent}
    (h : EdgeMapWF st.1) : EdgeMapWF ((l.foldl (processFace V) st)).1 := by
  induction l generalizing st with
  | nil => exact h
  | cons hd tl ih => exact ih (processFace_wf h)

lemma build_topology_edges_eq (m : Mesh) (hV : ¬ (m.numVertices ≤ 0 ∨ m.numTriangles ≤ 0)) :
    (build_topology m).edges = (topoSorted m).map Prod.fst := by
  rw [build_topology, if_neg hV]

lemma build_topology_mem_of_mem_keys {m : Mesh}
    (hV : ¬ (m.numVertices ≤ 0 ∨ m.numTriangles ≤ 0)) {k : ℤ × ℤ}
    (h : k ∈ edgeKeys (topoAccum m).1) :
    k ∈ (build_topology m).edges := by
  rw [build_topology_edges_eq m hV]
  rcases List.mem_map.1 h with ⟨kv, hkv, hfst⟩
  exact List.mem_map.2 ⟨kv, (List.mem_insertionSort _).2 hkv, hfst⟩


lemma insertTriEdge_pair_mem (f : ℕ) (acc : EdgeMap × List TopoEvent) {ab : ℤ × ℤ}
    (hne : ab.1 ≠ ab.2) : mkEdgeKey ab.1 ab.2 ∈ edgeKeys (insertTriEdge f acc ab).1 := by
  unfold insertTriEdge
  rw [if_neg hne]
  exact insertEdge_self_mem acc (mkEdgeKey ab.1 ab.2) f

lemma processFace_pair_mem {V : ℤ} (st : EdgeMap × List TopoEvent)
    {f : ℕ} {t : ℤ × ℤ × ℤ}
    (hin : ¬ (t.1 < 0 ∨ V ≤ t.1 ∨ t.2.1 < 0 ∨ V ≤ t.2.1 ∨ t.2.2 < 0 ∨ V ≤ t.2.2))
    {ab : ℤ × ℤ} (hab : ab ∈ [(t.1, t.2.1), (t.2.1, t.2.2), (t.2.2, t.1)])
    (hne : ab.1 ≠ ab.2) :
    mkEdgeKey ab.1 ab.2 ∈ edgeKeys (processFace V st (f, t)).1 := by
  unfold processFace
  rw [if_neg hin]
  simp only [List.foldl]
  simp only [List.mem_cons, List.not_mem_nil, or_false] at hab
  rcases hab with h | h | h
  · subst h
    exact insertTriEdge_keys_mono (insertTriEdge_keys_mono (insertTriEdge_pair_mem f st hne))
  · subst h
    exact insertTriEdge_keys_mono (insertTriEdge_pair_mem f _ hne)
  · subst h
    exact insertTriEdge_pair_mem f _ hne

/-- **C7.** In the built topology every edge key stores the lower vertex
index first, no edge key occurs twice, and an insertion hitting an edge
that already records two faces leaves the map untouched (the two recorded
faces are never overwritten) while appending the non-manifold log event. -/
theorem topology_edge_key_invariants (m : Mesh) :
    (∀ e ∈ (build_topology m).edges, e.1 < e.2) ∧
    (build_topology m).edges.Nodup ∧
    (∀ (st : EdgeMap × List TopoEvent) (key : ℤ × ℤ) (f : ℕ) (info : EdgeInfo),
      st.1.lookup key = some info → info.face0 ≠ -1 → info.face1 ≠ -1 →
      insertEdge st key f = (st.1, st.2 ++ [TopoEvent.nonManifold key.1 key.2 f])) := by
  have hwf : EdgeMapWF (topoAccum m).1 :=
    @foldl_processFace_wf m.numVertices
      ((List.range m.triangles.length).zip m.triangles)
      ([], []) ⟨by simp [edgeKeys], by simp [edgeKeys]⟩
  refine ⟨?_, ?_, ?_⟩
  · intro e he
    by_cases hV : m.numVertices ≤ 0 ∨ m.numTriangles ≤ 0
    · rw [build_topology, if_pos hV] at he
      simp at he
    · rw [build_topology_edges_eq m hV] at he
      rcases List.mem_map.1 he with ⟨kv, hkv, hfst⟩
      exact hfst ▸ hwf.1 kv.1 (List.mem_map.2 ⟨kv, (List.mem_insertionSort _).1 hkv, rfl⟩)
  · by_cases hV : m.numVertices ≤ 0 ∨ m.numTriangles ≤ 0
    · rw [build_topology, if_pos hV]
      simp
    · rw [build_topology_edges_eq m hV]
      have hperm := List.perm_insertionSort (fun a b => edgeKeyLe a.1 b.1) (topoAccum m).1
      exact ((hperm.map Prod.fst).nodup_iff).2 hwf.2
  · intro st key f info hl h0 h1
    simp [insertEdge, hl, h0, h1]

/-- Witness for `topology_edge_key_invariants` at the one-triangle mesh
and at a concrete saturated edge entry. -/
theorem topology_edge_key_invariants_witness :
    ((1 : ℤ), (2 : ℤ)).1 < ((1 : ℤ), (2 : ℤ)).2 ∧
    insertEdge ([(((0 : ℤ), (1 : ℤ)), ⟨0, 1⟩)], []) (0, 1) 5 =
      ([(((0 : ℤ), (1 : ℤ)), ⟨0, 1⟩)], [TopoEvent.nonManifold 0 1 5]) := by
  have h := topology_edge_key_invariants meshOneTri
  exact ⟨h.1 (1, 2) (by decide),
    h.2.2 ([(((0 : ℤ), (1 : ℤ)), ⟨0, 1⟩)], []) (0, 1) 5 ⟨0, 1⟩ (by decide)
      (by decide) (by decide)⟩

/-- **C6 (corrected), counterexample to the claim as stated.** The mesh
`meshDegenTri` has a single triangle `(0, 1, 1)` with a repeated vertex
index; the claim says such a triangle is skipped with a warning and
contributes no edges, but `build_topology` stores its edge `(0, 1)`
(recording face `0` twice) and logs nothing. -/
theorem build_topology_degenerate_not_skipped :
    (build_topology meshDegenTri).edges = [(0, 1)] ∧
    (build_topology meshDegenTri).edgeFaces = [(0, 0)] ∧
    (build_topology meshDegenTri).log = [] := by
  decide

/-- **C6 (amended).** A triangle with an out-of-range vertex index is
skipped with a warning and contributes no edges; a triangle whose indices
are in range is never skipped even if degenerate: only its repeated-vertex
edges are dropped (silently), and each of its distinct-endpoint edges is
present in the built edge structure. Topology building itself never fails
(it is a total function). -/
theorem build_topology_malformed_handling :
    (∀ (V : ℤ) (st : EdgeMap × List TopoEvent) (f : ℕ) (t : ℤ × ℤ × ℤ),
      (t.1 < 0 ∨ V ≤ t.1 ∨ t.2.1 < 0 ∨ V ≤ t.2.1 ∨ t.2.2 < 0 ∨ V ≤ t.2.2) →
      processFace V st (f, t) = (st.1, st.2 ++ [TopoEvent.invalidTri f])) ∧
    (∀ (m : Mesh) (f : ℕ) (hf : f < m.triangles.length),
      ¬ ((m.tri f).1 < 0 ∨ m.numVertices ≤ (m.tri f).1 ∨
         (m.tri f).2.1 < 0 ∨ m.numVertices ≤ (m.tri f).2.1 ∨
         (m.tri f).2.2 < 0 ∨ m.numVertices ≤ (m.tri f).2.2) →
      ∀ ab ∈ [((m.tri f).1, (m.tri f).2.1), ((m.tri f).2.1, (m.tri f).2.2),
              ((m.tri f).2.2, (m.tri f).1)],
        ab.1 ≠ ab.2 → mkEdgeKey ab.1 ab.2 ∈ (build_topology m).edges) := by
  constructor
  · intro V st f t ht
    unfold processFace
    rw [if_pos ht]
  · intro m f hf hin ab hab hne
    push_neg at hin
    obtain ⟨h1, h2, h3, h4, h5, h6⟩ := hin
    have hV : ¬ (m.numVertices ≤ 0 ∨ m.numTriangles ≤ 0) := by
      push_neg
      refine ⟨by omega, ?_⟩
      simp only [Mesh.numTriangles]
      omega
    apply build_topology_mem_of_mem_keys hV
    have hlen : f < ((List.range m.triangles.length).zip m.triangles).length := by
      simpa [List.length_zip] using hf
    have hget : ((List.range m.triangles.length).zip m.triangles)[f] = (f, m.tri f) := by
      rw [List.getElem_zip]
      simp [Mesh.tri, List.getD, List.getElem?_eq_getElem hf]
    have hmem : (f, m.tri f) ∈ (List.range m.triangles.length).zip m.triangles :=
      hget ▸ ((List.range m.triangles.length).zip m.triangles).getElem_mem hlen
    obtain ⟨l₁, l₂, hsplit⟩ := List.append_of_mem hmem
    unfold topoAccum
    rw [hsplit, List.foldl_append, List.foldl_cons]
    apply foldl_processFace_keys_mono
    exact processFace_pair_mem _ (by push_neg; exact ⟨h1, h2, h3, h4, h5, h6⟩) hab hne

end AutoUV

/-! ## Theorems: island extractor -/

namespace AutoUV

/-- Relation between the id map before and after a flooding step with
island id `c`: a face's label is unchanged, or it was unlabelled and is
now labelled `c`. -/
def IdsMono (c : ℤ) (ids ids' : ℤ → ℤ) : Prop :=
  ∀ v, ids' v = ids v ∨ (ids v = -1 ∧ ids' v = c)

lemma IdsMono.refl (c : ℤ) (ids : ℤ → ℤ) : IdsMono c ids ids :=
  fun _ => Or.inl rfl

lemma IdsMono.trans {c : ℤ} {ids ids' ids'' : ℤ → ℤ}
    (h1 : IdsMono c ids ids') (h2 : IdsMono c ids' ids'') : IdsMono c ids ids'' := by
  intro v
  rcases h2 v with h | ⟨hm, hc⟩
  · rcases h1 v with h' | ⟨hm', hc'⟩
    · exact Or.inl (h.trans h')
    · exact Or.inr ⟨hm', h.trans hc'⟩
  · rcases h1 v with h' | ⟨hm', hc'⟩
    · exact Or.inr ⟨h' ▸ hm, hc⟩
    · exact Or.inl (by rw [hc, hm', ← hc', hm])

lemma bfsStep_mono (c : ℤ) (acc : List ℤ × (ℤ → ℤ)) (v : ℤ) :
    IdsMono c acc.2 (bfsStep c acc v).2 := by
  unfold bfsStep
  split
  · intro w
    by_cases hw : w = v
    · subst hw
      exact Or.inr ⟨by assumption, by simp⟩
    · exact Or.inl (by simp [hw])
  · exact IdsMono.refl c acc.2

lemma foldl_bfsStep_mono (c : ℤ) (l : List ℤ) (acc : List ℤ × (ℤ → ℤ)) :
    IdsMono c acc.2 (l.foldl (bfsStep c) acc).2 := by
  induction l generalizing acc with
  | nil => exact IdsMono.refl c acc.2
  | cons hd tl ih => exact (bfsStep_mono c acc hd).trans (ih (bfsStep c acc hd))

lemma bfsLoop_mono (adj : ℤ → List ℤ) (c : ℤ) :
    ∀ (fuel : ℕ) (q : List ℤ) (ids : ℤ → ℤ), IdsMono c ids (bfsLoop adj c fuel q ids)
  | 0, _, ids => IdsMono.refl c ids
  | _ + 1, [], ids => IdsMono.refl c ids
  | fuel + 1, u :: q, ids => by
    rw [bfsLoop]
    exact (foldl_bfsStep_mono c (adj u) (q, ids)).trans
      (bfsLoop_mono adj c fuel _ _)

/-- The outer-loop invariant of `extract_islands` after the start faces
`0, …, s-1` have been processed: the count is nonnegative, labels are `-1`
or in `[0, count)`, faces before `s` are labelled, every id below the
count has a representative face before `s` (its BFS root), and for
`k < k'` some face of island `k` strictly precedes every face of island
`k'`. -/
def ExtractInv (F s : ℕ) (st : (ℤ → ℤ) × ℤ) : Prop :=
  0 ≤ st.2 ∧
  (∀ v : ℤ, st.1 v = -1 ∨ (0 ≤ st.1 v ∧ st.1 v < st.2)) ∧
  (∀ f : ℤ, 0 ≤ f → f < (s : ℤ) → st.1 f ≠ -1) ∧
  (∀ k : ℤ, 0 ≤ k → k < st.2 → ∃ f : ℤ, 0 ≤ f ∧ f < (s : ℤ) ∧ f < (F : ℤ) ∧ st.1 f = k) ∧
  (∀ k k' : ℤ, 0 ≤ k → k < k' → k' < st.2 →
    ∃ f1 : ℤ, 0 ≤ f1 ∧ f1 < (F : ℤ) ∧ st.1 f1 = k ∧
      ∀ f2 : ℤ, 0 ≤ f2 → st.1 f2 = k' → f1 < f2)

lemma extractStep_inv {adj : ℤ → List ℤ} {fuel F s : ℕ} {st : (ℤ → ℤ) × ℤ}
    (hs : s < F) (h : ExtractInv F s st) :
    ExtractInv F (s + 1) (extractStep adj fuel st s) := by
  obtain ⟨h1, h2, h3, h4, h5⟩ := h
  unfold extractStep
  by_cases hroot : st.1 (s : ℤ) = -1
  · rw [if_pos hroot]
    unfold ExtractInv
    dsimp only
    set c := st.2 with hc
    set ids1 : ℤ → ℤ := fun w => if w = (s : ℤ) then c else st.1 w with hids1
    set ids' := bfsLoop adj c fuel [(s : ℤ)] ids1 with hids'
    have hmono1 : IdsMono c st.1 ids1 := by
      intro w
      by_cases hw : w = (s : ℤ)
      · subst hw
        exact Or.inr ⟨hroot, by simp [hids1]⟩
      · exact Or.inl (by simp [hids1, hw])
    have hmono : IdsMono c st.1 ids' := hmono1.trans (bfsLoop_mono adj c fuel _ _)
    have hkeep : ∀ v : ℤ, st.1 v ≠ -1 → ids' v = st.1 v := by
      intro v hv
      rcases hmono v with h | ⟨hm, _⟩
      · exact h
      · exact absurd hm hv
    have hroot' : ids' (s : ℤ) = c := by
      have hne : ids1 (s : ℤ) = c := by simp [hids1]
      rcases (bfsLoop_mono adj c fuel [(s : ℤ)] ids1) (s : ℤ) with h | ⟨_, hcc⟩
      · rw [← hids'] at h
        rw [h, hne]
      · rw [← hids'] at hcc
        exact hcc
    have hvals : ∀ v : ℤ, ids' v = -1 ∨ (0 ≤ ids' v ∧ ids' v < c + 1) := by
      intro v
      rcases hmono v with h | ⟨_, hcc⟩
      · rcases h2 v with h' | ⟨ha, hb⟩
        · exact Or.inl (h.trans h')
        · exact Or.inr ⟨h ▸ ha, by rw [h]; omega⟩
      · exact Or.inr ⟨by rw [hcc]; omega, by rw [hcc]; omega⟩
    have hnewmem : ∀ f2 : ℤ, 0 ≤ f2 → ids' f2 = c → (s : ℤ) ≤ f2 := by
      intro f2 hf2 hidc
      by_contra hlt
      push_neg at hlt
      have hold := h3 f2 hf2 hlt
      rcases hmono f2 with h | ⟨hm, _⟩
      · rcases h2 f2 with h' | ⟨_, hb⟩
        · exact hold h'
        · rw [hidc] at h; omega
      · exact hold hm
    refine ⟨by omega, hvals, ?_, ?_, ?_⟩
    · intro f hf0 hfs
      by_cases hfe : f = (s : ℤ)
      · rw [hfe, hroot']; omega
      · have hfs' : f < (s : ℤ) := by
          push_cast at hfs ⊢
          omega
        have := h3 f hf0 hfs'
        rw [hkeep f this]
        exact this
    · intro k hk0 hkc
      by_cases hkc' : k < c
      · obtain ⟨f, hf0, hfs, hfF, hfk⟩ := h4 k hk0 hkc'
        refine ⟨f, hf0, by push_cast; omega, hfF, ?_⟩
        rw [hkeep f (by rw [hfk]; omega)]
        exact hfk
      · have hkc'' : k = c := by omega
        subst hkc''
        exact ⟨(s : ℤ), by omega, by push_cast; omega, by push_cast; omega, hroot'⟩
    · intro k k' hk0 hkk hk'
      by_cases hk'c : k' < c
      · obtain ⟨f1, hf10, hf1F, hf1k, hmax⟩ := h5 k k' hk0 hkk hk'c
        refine ⟨f1, hf10, hf1F, by rw [hkeep f1 (by rw [hf1k]; omega)]; exact hf1k, ?_⟩
        intro f2 hf2 hf2k
        rcases hmono f2 with h | ⟨_, hcc⟩
        · exact hmax f2 hf2 (h ▸ hf2k)
        · rw [hf2k] at hcc; omega
      · have hk'c' : k' = c := by omega
        subst hk'c'
        obtain ⟨f1, hf10, hf1s, hf1F, hf1k⟩ := h4 k hk0 hkk
        refine ⟨f1, hf10, hf1F, by rw [hkeep f1 (by rw [hf1k]; omega)]; exact hf1k, ?_⟩
        intro f2 hf2 hf2k
        have := hnewmem f2 hf2 hf2k
        omega
  · rw [if_neg hroot]
    refine ⟨h1, h2, ?_, ?_, h5⟩
    · intro f hf0 hfs
      by_cases hfe : f = (s : ℤ)
      · rw [hfe]; exact hroot
      · exact h3 f hf0 (by push_cast at hfs ⊢; omega)
    · intro k hk0 hkc
      obtain ⟨f, hf0, hfs, hfF, hfk⟩ := h4 k hk0 hkc
      exact ⟨f, hf0, by push_cast at hfs ⊢; omega, hfF, hfk⟩

lemma extract_fold_inv {adj : ℤ → List ℤ} {fuel F : ℕ} :
    ∀ (n s : ℕ) (st : (ℤ → ℤ) × ℤ), s + n ≤ F → ExtractInv F s st →
    ExtractInv F (s + n) ((List.range' s n).foldl (extractStep adj fuel) st)
  | 0, s, st, _, h => h
  | n + 1, s, st, hle, h => by
    rw [List.range'_succ, List.foldl_cons]
    have h1 := @extractStep_inv adj fuel F s st (show s < F by omega) h
    have h2 := @extract_fold_inv adj fuel F n (s + 1)
      (extractStep adj fuel st s) (by omega) h1
    have heq : s + (n + 1) = (s + 1) + n := by omega
    rw [heq]
    exact h2

end AutoUV

namespace AutoUV

/-- **C1.** `extract_islands` assigns every face index in `[0, F)` exactly
one island id in `[0, num_islands)`; ids are dense (each id below the
count labels some face); ids follow BFS-root discovery order with roots
in ascending face index (for `k < k'`, island `k` has a face strictly
preceding every face of island `k'`, namely its root); and the result is
a deterministic function of the face list and edge enumeration alone
(meshes with equal triangle lists and topologies with equal edge-face
arrays give identical output). -/
theorem extract_islands_partition (mesh : Mesh) (topo : TopologyInfo) (seams : List ℤ) :
    (∀ f : ℤ, 0 ≤ f → f < (mesh.triangles.length : ℤ) →
      0 ≤ (extract_islands mesh topo seams).1 f ∧
      (extract_islands mesh topo seams).1 f < (extract_islands mesh topo seams).2) ∧
    (∀ k : ℤ, 0 ≤ k → k < (extract_islands mesh topo seams).2 →
      ∃ f : ℤ, 0 ≤ f ∧ f < (mesh.triangles.length : ℤ) ∧
        (extract_islands mesh topo seams).1 f = k) ∧
    (∀ k k' : ℤ, 0 ≤ k → k < k' → k' < (extract_islands mesh topo seams).2 →
      ∃ f1 : ℤ, 0 ≤ f1 ∧ f1 < (mesh.triangles.length : ℤ) ∧
        (extract_islands mesh topo seams).1 f1 = k ∧
        ∀ f2 : ℤ, 0 ≤ f2 → (extract_islands mesh topo seams).1 f2 = k' → f1 < f2) ∧
    (∀ (mesh' : Mesh) (topo' : TopologyInfo),
      mesh'.triangles = mesh.triangles → topo'.edgeFaces = topo.edgeFaces →
      extract_islands mesh' topo' seams = extract_islands mesh topo seams) := by
  have hbase : ExtractInv mesh.triangles.length 0 ((fun _ => (-1 : ℤ)), 0) := by
    refine ⟨le_refl 0, fun v => Or.inl rfl, ?_, ?_, ?_⟩
    · intro f _ hf
      exact absurd hf (by push_cast; omega)
    · intro k hk0 hk
      exact absurd hk (by omega)
    · intro k k' hk0 hkk hk'
      exact absurd hk' (by omega)
  have hinv := @extract_fold_inv (extractAdj topo.edgeFaces seams)
    (mesh.triangles.length + 2 * topo.edgeFaces.length + 1) mesh.triangles.length
    mesh.triangles.length 0 ((fun _ => (-1 : ℤ)), 0) (by omega) hbase
  rw [Nat.zero_add] at hinv
  have hext : extract_islands mesh topo seams =
      (List.range' 0 mesh.triangles.length).foldl
        (extractStep (extractAdj topo.edgeFaces seams)
          (mesh.triangles.length + 2 * topo.edgeFaces.length + 1))
        ((fun _ => (-1 : ℤ)), 0) := by
    simp only [extract_islands]
    rw [List.range_eq_range']
  rw [hext]
  obtain ⟨_, h2, h3, h4, h5⟩ := hinv
  refine ⟨?_, ?_, ?_, ?_⟩
  · intro f hf0 hfF
    have hne := h3 f hf0 hfF
    rcases h2 f with h | ⟨ha, hb⟩
    · exact absurd h hne
    · exact ⟨ha, hb⟩
  · intro k hk0 hk
    obtain ⟨f, hf0, _, hfF, hfk⟩ := h4 k hk0 hk
    exact ⟨f, hf0, hfF, hfk⟩
  · exact h5
  · intro mesh' topo' hm ht
    simp only [extract_islands, hm, ht]
    rw [List.range_eq_range']

/-- Witness for `extract_islands_partition`: on the two-triangle,
two-island mesh, face `0` gets an id in range, and island `0`'s root
precedes every face of island `1`. -/
theorem extract_islands_partition_witness :
    (0 ≤ (extract_islands meshTwoTri (build_topology meshTwoTri) []).1 0 ∧
      (extract_islands meshTwoTri (build_topology meshTwoTri) []).1 0 <
        (extract_islands meshTwoTri (build_topology meshTwoTri) []).2) ∧
    (∃ f1 : ℤ, 0 ≤ f1 ∧ f1 < (meshTwoTri.triangles.length : ℤ) ∧
      (extract_islands meshTwoTri (build_topology meshTwoTri) []).1 f1 = 0 ∧
      ∀ f2 : ℤ, 0 ≤ f2 →
        (extract_islands meshTwoTri (build_topology meshTwoTri) []).1 f2 = 1 →
          f1 < f2) := by
  have h := extract_islands_partition meshTwoTri (build_topology meshTwoTri) []
  exact ⟨h.1 0 (by decide) (by decide), h.2.2.1 0 1 (by decide) (by decide) (by decide)⟩

end AutoUV

namespace AutoUV

/-- Witness for `build_topology_malformed_handling`: an out-of-range face
is skipped with a warning, and the in-range face of the one-triangle mesh
contributes its edge `(0, 1)`. -/
theorem build_topology_malformed_handling_witness :
    processFace 3 ([], []) (7, (0, 5, 2)) = ([], [TopoEvent.invalidTri 7]) ∧
    mkEdgeKey 0 1 ∈ (build_topology meshOneTri).edges := by
  have h := build_topology_malformed_handling
  exact ⟨h.1 3 ([], []) 7 (0, 5, 2) (by decide),
    h.2 meshOneTri 0 (by decide) (by decide) (0, 1) (by decide) (by decide)⟩

end AutoUV

/-! ## Theorems: seam detector -/

namespace AutoUV

lemma mem_setInsert_of_mem {x e : ℕ} : ∀ {s : List ℕ}, x ∈ s → x ∈ setInsert e s
  | [], h => by cases h
  | y :: ys, h => by
    unfold setInsert
    by_cases h1 : e < y
    · simp only [if_pos h1]
      exact List.mem_cons_of_mem e h
    · rw [if_neg h1]
      by_cases h2 : e = y
      · simpa [h2] using h
      · rw [if_neg h2]
        rcases List.mem_cons.1 h with rfl | hys
        · exact List.mem_cons_self x _
        · exact List.mem_cons_of_mem y (mem_setInsert_of_mem hys)

lemma mem_setInsert_self (e : ℕ) : ∀ s : List ℕ, e ∈ setInsert e s
  | [] => by simp [setInsert]
  | y :: ys => by
    unfold setInsert
    by_cases h1 : e < y
    · simp [h1]
    · rw [if_neg h1]
      by_cases h2 : e = y
      · simp [h2]
      · rw [if_neg h2]
        exact List.mem_cons_of_mem y (mem_setInsert_self e ys)

lemma setInsert_ne_nil (e : ℕ) (s : List ℕ) : setInsert e s ≠ [] := by
  intro h
  exact absurd (h ▸ mem_setInsert_self e s) (List.not_mem_nil e)

lemma mem_foldl_refineInner {ntE : List ℕ} {x : ℕ} :
    ∀ (l : List ℕ) (s : List ℕ), x ∈ s → x ∈ l.foldl (refineInner ntE) s
  | [], _, h => h
  | e :: es, s, h => by
    rw [List.foldl_cons]
    refine mem_foldl_refineInner es _ ?_
    unfold refineInner
    split
    · exact mem_setInsert_of_mem h
    · exact h

lemma mem_foldl_refineStep {topo : TopologyInfo} {ntE : List ℕ} {defect : ℤ → ℚ}
    {x : ℕ} :
    ∀ (l : List ℕ) (s : List ℕ), x ∈ s → x ∈ l.foldl (refineStep topo ntE defect) s
  | [], _, h => h
  | v :: vs, s, h => by
    rw [List.foldl_cons]
    refine mem_foldl_refineStep vs _ ?_
    unfold refineStep
    split
    · exact mem_foldl_refineInner _ _ h
    · exact h

lemma mem_seamRefined_of_mem {mesh : Mesh} {topo : TopologyInfo}
    {sharp : ℤ → ℤ → ℚ} {defect : ℤ → ℚ} {x : ℕ}
    (h : x ∈ seamAfterFallback mesh topo sharp) :
    x ∈ seamRefined mesh topo sharp defect :=
  mem_foldl_refineStep _ _ h

lemma foldl_filterStep_no_pass {topo : TopologyInfo} {sharp : ℤ → ℤ → ℚ} :
    ∀ (l : List ℕ) (s : List ℕ), (∀ e ∈ l, ¬ (edgeSharp topo sharp e > 1/2)) →
      l.foldl (filterStep topo sharp) s = s
  | [], _, _ => rfl
  | e :: es, s, h => by
    rw [List.foldl_cons]
    have hstep : filterStep topo sharp s e = s := by
      unfold filterStep
      rw [if_neg (h e (List.mem_cons_self e es))]
    rw [hstep]
    exact foldl_filterStep_no_pass es s fun x hx => h x (List.mem_cons_of_mem e hx)

lemma bestFold_spec {α : Type} (g : α → ℚ) :
    ∀ (l : List α) (acc : Option α × ℚ),
      (l.foldl (bestStep g) acc = acc ∨
        ∃ b ∈ l, l.foldl (bestStep g) acc = (some b, g b)) ∧
      acc.2 ≤ (l.foldl (bestStep g) acc).2 ∧
      ∀ e ∈ l, g e ≤ (l.foldl (bestStep g) acc).2
  | [], acc => ⟨Or.inl rfl, le_refl _, by simp⟩
  | hd :: tl, acc => by
    rw [List.foldl_cons]
    obtain ⟨h1, h2, h3⟩ := bestFold_spec g tl (bestStep g acc hd)
    by_cases hgt : g hd > acc.2
    · have hstep : bestStep g acc hd = (some hd, g hd) := by
        unfold bestStep
        rw [if_pos hgt]
      refine ⟨?_, ?_, ?_⟩
      · rcases h1 with h | ⟨b, hb, he⟩
        · exact Or.inr ⟨hd, List.mem_cons_self hd tl, by rw [h, hstep]⟩
        · exact Or.inr ⟨b, List.mem_cons_of_mem hd hb, he⟩
      · refine le_trans (le_of_lt hgt) ?_
        refine le_trans (le_of_eq ?_) h2
        rw [hstep]
      · intro e he
        rcases List.mem_cons.1 he with rfl | hetl
        · refine le_trans (le_of_eq ?_) h2
          rw [hstep]
        · exact h3 e hetl
    · have hstep : bestStep g acc hd = acc := by
        unfold bestStep
        rw [if_neg hgt]
      rw [hstep] at h1 h2 h3 ⊢
      refine ⟨?_, h2, ?_⟩
      · rcases h1 with h | ⟨b, hb, he⟩
        · exact Or.inl h
        · exact Or.inr ⟨b, List.mem_cons_of_mem hd hb, he⟩
      · intro e he
        rcases List.mem_cons.1 he with rfl | hetl
        · exact le_trans (not_lt.1 hgt) h2
        · exact h3 e hetl

lemma seamBest_finds {topo : TopologyInfo} {sharp : ℤ → ℤ → ℚ} {ntE : List ℕ}
    (hne : ntE ≠ []) (hpos : ∀ e ∈ ntE, 0 ≤ edgeSharp topo sharp e) :
    ∃ b ∈ ntE, seamBest topo sharp ntE = (some b, edgeSharp topo sharp b) ∧
      ∀ e ∈ ntE, edgeSharp topo sharp e ≤ edgeSharp topo sharp b := by
  unfold seamBest
  obtain ⟨h1, _, h3⟩ := bestFold_spec (edgeSharp topo sharp) ntE (none, -1)
  rcases h1 with h | ⟨b, hb, he⟩
  · obtain ⟨e0, he0⟩ := List.exists_mem_of_ne_nil ntE hne
    have := h3 e0 he0
    rw [h] at this
    have := le_trans (hpos e0 he0) this
    norm_num at this
  · refine ⟨b, hb, he, ?_⟩
    intro e hee
    have h4 := h3 e hee
    rw [he] at h4
    exact h4

lemma seamNonTree_nil_of_edgeFaces_nil {mesh : Mesh} {topo : TopologyInfo}
    {sharp : ℤ → ℤ → ℚ} (h : topo.edgeFaces = []) :
    seamNonTree mesh topo sharp = [] := by
  simp [seamNonTree, h]

lemma seamAfterFallback_ne_nil {mesh : Mesh} {topo : TopologyInfo}
    {sharp : ℤ → ℤ → ℚ}
    (hnt : seamNonTree mesh topo sharp ≠ [])
    (hpos : ∀ e ∈ seamNonTree mesh topo sharp, 0 ≤ edgeSharp topo sharp e) :
    seamAfterFallback mesh topo sharp ≠ [] := by
  unfold seamAfterFallback
  by_cases hc0 : seamFiltered mesh topo sharp = []
  · rw [if_pos ⟨hc0, hnt⟩]
    obtain ⟨b, hb, hbe, _⟩ := seamBest_finds hnt hpos
    rw [hbe]
    exact setInsert_ne_nil b _
  · rw [if_neg (by intro hx; exact hc0 hx.1)]
    exact hc0

lemma detect_seams_eq_refined {mesh : Mesh} {topo : TopologyInfo}
    {sharp : ℤ → ℤ → ℚ} {defect : ℤ → ℚ} {t : ℚ}
    (hF : mesh.triangles.length ≠ 0)
    (hnt : seamNonTree mesh topo sharp ≠ [])
    (hpos : ∀ e ∈ seamNonTree mesh topo sharp, 0 ≤ edgeSharp topo sharp e) :
    detect_seams mesh topo sharp defect t = seamRefined mesh topo sharp defect ∧
    seamRefined mesh topo sharp defect ≠ [] := by
  have hE : topo.edgeFaces.length ≠ 0 := by
    intro hE
    exact hnt (seamNonTree_nil_of_edgeFaces_nil (List.length_eq_zero.1 hE))
  have hafter := seamAfterFallback_ne_nil hnt hpos
  obtain ⟨x, hx⟩ := List.exists_mem_of_ne_nil _ hafter
  have href : seamRefined mesh topo sharp defect ≠ [] := by
    intro h
    exact absurd (h ▸ @mem_seamRefined_of_mem mesh topo sharp defect x hx) (List.not_mem_nil x)
  unfold detect_seams
  rw [if_neg (by push_neg; exact ⟨hF, hE⟩), if_neg hnt, if_neg href]
  exact ⟨rfl, href⟩

/-- **C4 (corrected), counterexample to the claim as stated.** The
single-triangle mesh has one traversable face (`F = 1 > 0`, `E = 3 > 0`,
and BFS visits face `0`), yet `detect_seams` returns the empty seam set:
all three edges are boundary edges, so no non-tree candidate exists. -/
theorem detect_seams_one_face_empty :
    detect_seams meshOneTri (build_topology meshOneTri)
      (fun _ _ => 1) (fun _ => 0) 30 = [] ∧
    meshOneTri.triangles.length = 1 := by
  constructor
  · rfl
  · rfl

/-- **C4 (amended).** `detect_seams` returns an empty seam set exactly
when the pipeline has nothing to cut: the mesh has no faces, the topology
has no edges, or no non-tree non-boundary candidate edge exists; whenever
a candidate exists (and edge sharpness is nonnegative, as
`1 − dot(n0, n1)` of unit or zero normals is), the result is non-empty. -/
theorem detect_seams_empty_iff (mesh : Mesh) (topo : TopologyInfo)
    (sharp : ℤ → ℤ → ℚ) (defect : ℤ → ℚ) (t : ℚ)
    (hpos : ∀ e ∈ seamNonTree mesh topo sharp, 0 ≤ edgeSharp topo sharp e) :
    detect_seams mesh topo sharp defect t = [] ↔
      mesh.triangles.length = 0 ∨ topo.edgeFaces.length = 0 ∨
      seamNonTree mesh topo sharp = [] := by
  constructor
  · intro h
    by_contra hcon
    push_neg at hcon
    obtain ⟨hF, _, hnt⟩ := hcon
    obtain ⟨heq, hne⟩ := @detect_seams_eq_refined mesh topo sharp defect t hF hnt hpos
    exact hne (heq ▸ h)
  · intro h
    unfold detect_seams
    rcases h with h | h | h
    · rw [if_pos (Or.inl h)]
    · rw [if_pos (Or.inr h)]
    · by_cases hg : mesh.triangles.length = 0 ∨ topo.edgeFaces.length = 0
      · rw [if_pos hg]
      · rw [if_neg hg, if_pos h]

/-- Witness for `detect_seams_empty_iff` at the single-triangle mesh with
a constant sharpness oracle. -/
theorem detect_seams_empty_iff_witness :
    detect_seams meshOneTri (build_topology meshOneTri)
        (fun _ _ => 1) (fun _ => 0) 30 = [] ↔
      meshOneTri.triangles.length = 0 ∨
      (build_topology meshOneTri).edgeFaces.length = 0 ∨
      seamNonTree meshOneTri (build_topology meshOneTri) (fun _ _ => 1) = [] :=
  detect_seams_empty_iff meshOneTri (build_topology meshOneTri)
    (fun _ _ => 1) (fun _ => 0) 30 (by decide)

/-- **C5.** When non-tree, non-boundary candidates exist (and sharpness is
nonnegative), `detect_seams` returns at least one seam; and if the
`> 0.5` sharpness filter removes every candidate, the fallback
force-selects a single candidate of maximum sharpness, which survives
into the returned seam set. -/
theorem detect_seams_fallback_force_select (mesh : Mesh) (topo : TopologyInfo)
    (sharp : ℤ → ℤ → ℚ) (defect : ℤ → ℚ) (t : ℚ)
    (hF : mesh.triangles.length ≠ 0)
    (hnt : seamNonTree mesh topo sharp ≠ [])
    (hpos : ∀ e ∈ seamNonTree mesh topo sharp, 0 ≤ edgeSharp topo sharp e) :
    detect_seams mesh topo sharp defect t ≠ [] ∧
    ((∀ e ∈ seamNonTree mesh topo sharp, edgeSharp topo sharp e ≤ 1/2) →
      ∃ b ∈ seamNonTree mesh topo sharp,
        (∀ e ∈ seamNonTree mesh topo sharp,
          edgeSharp topo sharp e ≤ edgeSharp topo sharp b) ∧
        seamAfterFallback mesh topo sharp = [b] ∧
        b ∈ detect_seams mesh topo sharp defect t) := by
  obtain ⟨heq, hne⟩ := @detect_seams_eq_refined mesh topo sharp defect t hF hnt hpos
  refine ⟨heq ▸ hne, ?_⟩
  intro hall
  have hc0 : seamFiltered mesh topo sharp = [] := by
    unfold seamFiltered
    exact foldl_filterStep_no_pass _ _ fun e he => not_lt.2 (hall e he)
  obtain ⟨b, hb, hbe, hmax⟩ := seamBest_finds hnt hpos
  have hafter : seamAfterFallback mesh topo sharp = [b] := by
    unfold seamAfterFallback
    rw [if_pos ⟨hc0, hnt⟩, hbe]
    dsimp only
    rw [hc0]
    rfl
  refine ⟨b, hb, hmax, hafter, ?_⟩
  rw [heq]
  exact mem_seamRefined_of_mem (hafter ▸ List.mem_singleton_self b)

/-- Witness for `detect_seams_fallback_force_select`: on the tetrahedron
with a constant-zero sharpness oracle all candidates are filtered out,
one is force-selected, and the seam set is that singleton. -/
theorem detect_seams_fallback_force_select_witness :
    detect_seams tetraMesh (build_topology tetraMesh)
      (fun _ _ => 0) (fun _ => 0) 30 ≠ [] ∧
    ∃ b ∈ seamNonTree tetraMesh (build_topology tetraMesh) (fun _ _ => 0),
      (∀ e ∈ seamNonTree tetraMesh (build_topology tetraMesh) (fun _ _ => 0),
        edgeSharp (build_topology tetraMesh) (fun _ _ => 0) e ≤
          edgeSharp (build_topology tetraMesh) (fun _ _ => 0) b) ∧
      seamAfterFallback tetraMesh (build_topology tetraMesh) (fun _ _ => 0) = [b] ∧
      b ∈ detect_seams tetraMesh (build_topology tetraMesh)
        (fun _ _ => 0) (fun _ => 0) 30 := by
  have h := detect_seams_fallback_force_select tetraMesh (build_topology tetraMesh)
    (fun _ _ => 0) (fun _ => 0) 30 (by decide) (by decide)
    (by intro e he; norm_num [edgeSharp])
  exact ⟨h.1, h.2 (by intro e he; norm_num [edgeSharp])⟩

/-- **C9.** `detect_seams` never reads its `angle_threshold` argument
(the C function casts it to `void`; the sharpness cutoff is the fixed
constant `0.5`), so any two runs differing only in that parameter return
identical seam sets. -/
theorem detect_seams_angle_threshold_independent (mesh : Mesh)
    (topo : TopologyInfo) (sharp : ℤ → ℤ → ℚ) (defect : ℤ → ℚ) (t1 t2 : ℚ) :
    detect_seams mesh topo sharp defect t1 = detect_seams mesh topo sharp defect t2 :=
  rfl

end AutoUV

/-! ## Theorems: LSCM normalization -/

namespace AutoUV

lemma foldl_min_map (g : ℚ → ℚ) (hg : ∀ a b, g (min a b) = min (g a) (g b)) :
    ∀ (xs : List ℚ) (x : ℚ), (xs.map g).foldl min (g x) = g (xs.foldl min x)
  | [], _ => rfl
  | y :: ys, x => by
    rw [List.map_cons, List.foldl_cons, List.foldl_cons, ← hg]
    exact foldl_min_map g hg ys (min x y)

lemma foldl_max_map (g : ℚ → ℚ) (hg : ∀ a b, g (max a b) = max (g a) (g b)) :
    ∀ (xs : List ℚ) (x : ℚ), (xs.map g).foldl max (g x) = g (xs.foldl max x)
  | [], _ => rfl
  | y :: ys, x => by
    rw [List.map_cons, List.foldl_cons, List.foldl_cons, ← hg]
    exact foldl_max_map g hg ys (max x y)

lemma listMin_map (g : ℚ → ℚ) (hg : ∀ a b, g (min a b) = min (g a) (g b)) :
    ∀ (xs : List ℚ), xs ≠ [] → listMin (xs.map g) = g (listMin xs)
  | [], h => absurd rfl h
  | _ :: _, _ => foldl_min_map g hg _ _

lemma listMax_map (g : ℚ → ℚ) (hg : ∀ a b, g (max a b) = max (g a) (g b)) :
    ∀ (xs : List ℚ), xs ≠ [] → listMax (xs.map g) = g (listMax xs)
  | [], h => absurd rfl h
  | _ :: _, _ => foldl_max_map g hg _ _

lemma affine_min (c m : ℚ) (hm : 0 < m) (a b : ℚ) :
    (min a b - c) / m = min ((a - c) / m) ((b - c) / m) := by
  rw [min_div_div_right hm.le, min_sub_sub_right]

lemma affine_max (c m : ℚ) (hm : 0 < m) (a b : ℚ) :
    (max a b - c) / m = max ((a - c) / m) ((b - c) / m) := by
  rw [max_div_div_right hm.le, max_sub_sub_right]

/-- Bounding box of an axis-wise affinely transformed UV list. -/
lemma bbox_map (uvs : List (ℚ × ℚ)) (hne : uvs ≠ []) (cu cv m m' : ℚ)
    (hm : 0 < m) (hm' : 0 < m') :
    minU (uvs.map fun p => ((p.1 - cu) / m, (p.2 - cv) / m')) = (minU uvs - cu) / m ∧
    maxU (uvs.map fun p => ((p.1 - cu) / m, (p.2 - cv) / m')) = (maxU uvs - cu) / m ∧
    minV (uvs.map fun p => ((p.1 - cu) / m, (p.2 - cv) / m')) = (minV uvs - cv) / m' ∧
    maxV (uvs.map fun p => ((p.1 - cu) / m, (p.2 - cv) / m')) = (maxV uvs - cv) / m' := by
  have hmapne : uvs.map Prod.fst ≠ [] := by
    intro h
    exact hne (List.map_eq_nil.1 h)
  have hmapne' : uvs.map Prod.snd ≠ [] := by
    intro h
    exact hne (List.map_eq_nil.1 h)
  refine ⟨?_, ?_, ?_, ?_⟩
  · show listMin _ = _
    rw [show (uvs.map fun p => ((p.1 - cu) / m, (p.2 - cv) / m')).map Prod.fst =
        (uvs.map Prod.fst).map (fun x => (x - cu) / m) by
      simp [List.map_map, Function.comp]]
    exact listMin_map _ (fun a b => affine_min cu m hm a b) _ hmapne
  · show listMax _ = _
    rw [show (uvs.map fun p => ((p.1 - cu) / m, (p.2 - cv) / m')).map Prod.fst =
        (uvs.map Prod.fst).map (fun x => (x - cu) / m) by
      simp [List.map_map, Function.comp]]
    exact listMax_map _ (fun a b => affine_max cu m hm a b) _ hmapne
  · show listMin _ = _
    rw [show (uvs.map fun p => ((p.1 - cu) / m, (p.2 - cv) / m')).map Prod.snd =
        (uvs.map Prod.snd).map (fun x => (x - cv) / m') by
      simp [List.map_map, Function.comp]]
    exact listMin_map _ (fun a b => affine_min cv m' hm' a b) _ hmapne'
  · show listMax _ = _
    rw [show (uvs.map fun p => ((p.1 - cu) / m, (p.2 - cv) / m')).map Prod.snd =
        (uvs.map Prod.snd).map (fun x => (x - cv) / m') by
      simp [List.map_map, Function.comp]]
    exact listMax_map _ (fun a b => affine_max cv m' hm' a b) _ hmapne'

lemma uvEps_pos : (0 : ℚ) < uvEps := by
  rw [uvEps, Rat.mkRat_eq_div]
  norm_num

end AutoUV

namespace AutoUV

/-- **C2.** With a nondegenerate bounding box (both raw ranges at least
the `1e-6` cutoff, so the clamps are inert): the code's elongation test
`aspect > 4 ∨ aspect < 0.25` on `aspect = u_range / v_range` coincides
with "larger range over smaller range exceeds 4" (the claim's aspect
never being below `0.25`); in the elongated case both axes are divided by
the larger range and the pre-scaling aspect ratio is preserved
(`u'·v = v'·u`); otherwise each axis is divided by its own range and the
result's bounding box is exactly `[0,1]²`; in both cases the bounding-box
minimum corner lands at the origin. -/
theorem normalize_uvs_unit_square_spec (uvs : List (ℚ × ℚ)) (hne : uvs ≠ [])
    (hu : uvEps ≤ uRange0 uvs) (hv : uvEps ≤ vRange0 uvs) :
    ((uRange0 uvs / vRange0 uvs > 4 ∨ uRange0 uvs / vRange0 uvs < 1/4) ↔
      4 * min (uRange0 uvs) (vRange0 uvs) < max (uRange0 uvs) (vRange0 uvs)) ∧
    (max (uRange0 uvs) (vRange0 uvs) / min (uRange0 uvs) (vRange0 uvs) > 4 ↔
      4 * min (uRange0 uvs) (vRange0 uvs) < max (uRange0 uvs) (vRange0 uvs)) ∧
    (4 * min (uRange0 uvs) (vRange0 uvs) < max (uRange0 uvs) (vRange0 uvs) →
      normalize_uvs_to_unit_square uvs =
        uvs.map (fun p => ((p.1 - minU uvs) / max (uRange0 uvs) (vRange0 uvs),
                           (p.2 - minV uvs) / max (uRange0 uvs) (vRange0 uvs))) ∧
      minU (normalize_uvs_to_unit_square uvs) = 0 ∧
      minV (normalize_uvs_to_unit_square uvs) = 0 ∧
      uRange0 (normalize_uvs_to_unit_square uvs) * vRange0 uvs =
        vRange0 (normalize_uvs_to_unit_square uvs) * uRange0 uvs) ∧
    (¬ 4 * min (uRange0 uvs) (vRange0 uvs) < max (uRange0 uvs) (vRange0 uvs) →
      normalize_uvs_to_unit_square uvs =
        uvs.map (fun p => ((p.1 - minU uvs) / uRange0 uvs,
                           (p.2 - minV uvs) / vRange0 uvs)) ∧
      minU (normalize_uvs_to_unit_square uvs) = 0 ∧
      minV (normalize_uvs_to_unit_square uvs) = 0 ∧
      maxU (normalize_uvs_to_unit_square uvs) = 1 ∧
      maxV (normalize_uvs_to_unit_square uvs) = 1) := by
  have hup : 0 < uRange0 uvs := lt_of_lt_of_le uvEps_pos hu
  have hvp : 0 < vRange0 uvs := lt_of_lt_of_le uvEps_pos hv
  have hur : uRange uvs = uRange0 uvs := if_neg (not_lt.2 hu)
  have hvr : vRange uvs = vRange0 uvs := if_neg (not_lt.2 hv)
  set u := uRange0 uvs with hudef
  set v := vRange0 uvs with hvdef
  have hcondA : (u / v > 4 ∨ u / v < 1/4) ↔ 4 * min u v < max u v := by
    constructor
    · intro h
      rcases h with h | h
      · rw [gt_iff_lt, lt_div_iff hvp] at h
        rcases le_total u v with huv | huv
        · rw [min_eq_left huv, max_eq_right huv]
          nlinarith
        · rw [min_eq_right huv, max_eq_left huv]
          linarith
      · rw [div_lt_div_iff hvp (by norm_num : (0:ℚ) < 4)] at h
        rcases le_total u v with huv | huv
        · rw [min_eq_left huv, max_eq_right huv]
          linarith
        · rw [min_eq_right huv, max_eq_left huv]
          nlinarith
    · intro h
      rcases le_total u v with huv | huv
      · rw [min_eq_left huv, max_eq_right huv] at h
        right
        rw [div_lt_div_iff hvp (by norm_num : (0:ℚ) < 4)]
        linarith
      · rw [min_eq_right huv, max_eq_left huv] at h
        left
        rw [gt_iff_lt, lt_div_iff hvp]
        linarith
  have hminp : 0 < min u v := lt_min hup hvp
  have hmaxp : 0 < max u v := lt_of_lt_of_le hup (le_max_left u v)
  have hcondB : max u v / min u v > 4 ↔ 4 * min u v < max u v := by
    rw [gt_iff_lt, lt_div_iff hminp]
  refine ⟨hcondA, hcondB, ?_, ?_⟩
  · intro hcond
    have hbranch : normalize_uvs_to_unit_square uvs =
        uvs.map fun p => ((p.1 - minU uvs) / max u v, (p.2 - minV uvs) / max u v) := by
      unfold normalize_uvs_to_unit_square
      rw [if_neg hne]
      simp only [hur, hvr, ← hudef, ← hvdef]
      rw [if_pos (hcondA.mpr hcond)]
      have hmr : (if u > v then u else v) = max u v := by
        by_cases hgt : u > v
        · rw [if_pos hgt, max_eq_left (le_of_lt hgt)]
        · rw [if_neg hgt, max_eq_right (le_of_not_lt hgt)]
      rw [hmr]
    obtain ⟨hminu, hmaxu, hminv, hmaxv⟩ :=
      bbox_map uvs hne (minU uvs) (minV uvs) (max u v) (max u v) hmaxp hmaxp
    rw [← hbranch] at hminu hmaxu hminv hmaxv
    refine ⟨hbranch, ?_, ?_, ?_⟩
    · rw [hminu, sub_self, zero_div]
    · rw [hminv, sub_self, zero_div]
    · have e1 : uRange0 (normalize_uvs_to_unit_square uvs) = u / (u ⊔ v) := by
        rw [uRange0, hmaxu, hminu, sub_self, zero_div, sub_zero]
        rfl
      have e2 : vRange0 (normalize_uvs_to_unit_square uvs) = v / (u ⊔ v) := by
        rw [vRange0, hmaxv, hminv, sub_self, zero_div, sub_zero]
        rfl
      rw [e1, e2, div_mul_eq_mul_div, div_mul_eq_mul_div, mul_comm]
  · intro hcond
    have hbranch : normalize_uvs_to_unit_square uvs =
        uvs.map fun p => ((p.1 - minU uvs) / u, (p.2 - minV uvs) / v) := by
      unfold normalize_uvs_to_unit_square
      rw [if_neg hne]
      simp only [hur, hvr, ← hudef, ← hvdef]
      rw [if_neg fun hx => hcond (hcondA.mp hx)]
    obtain ⟨hminu, hmaxu, hminv, hmaxv⟩ :=
      bbox_map uvs hne (minU uvs) (minV uvs) u v hup hvp
    rw [← hbranch] at hminu hmaxu hminv hmaxv
    refine ⟨hbranch, ?_, ?_, ?_, ?_⟩
    · rw [hminu, sub_self, zero_div]
    · rw [hminv, sub_self, zero_div]
    · rw [hmaxu]
      exact div_self hup.ne'
    · rw [hmaxv]
      exact div_self hvp.ne'

/-- Witness for `normalize_uvs_unit_square_spec`: an elongated strip
(`10 × 1`) keeps its minimum corner at the origin under uniform scaling;
a `2 × 1` box fills the unit square exactly under per-axis scaling. -/
theorem normalize_uvs_unit_square_spec_witness :
    minU (normalize_uvs_to_unit_square [((0:ℚ), (0:ℚ)), (10, 1)]) = 0 ∧
    maxU (normalize_uvs_to_unit_square [((0:ℚ), (0:ℚ)), (2, 1)]) = 1 := by
  have e10 : uRange0 [((0:ℚ), (0:ℚ)), (10, 1)] = 10 := by
    simp [uRange0, maxU, minU, listMax, listMin]
  have e10v : vRange0 [((0:ℚ), (0:ℚ)), (10, 1)] = 1 := by
    simp [vRange0, maxV, minV, listMax, listMin]
  have e2u : uRange0 [((0:ℚ), (0:ℚ)), (2, 1)] = 2 := by
    simp [uRange0, maxU, minU, listMax, listMin]
  have e2v : vRange0 [((0:ℚ), (0:ℚ)), (2, 1)] = 1 := by
    simp [vRange0, maxV, minV, listMax, listMin]
  have heps : uvEps ≤ 1 := by
    rw [uvEps, Rat.mkRat_eq_div]
    norm_num
  have h1 := normalize_uvs_unit_square_spec [((0:ℚ), (0:ℚ)), (10, 1)]
    (by simp) (by rw [e10]; exact le_trans heps (by norm_num)) (by rw [e10v]; exact heps)
  have h2 := normalize_uvs_unit_square_spec [((0:ℚ), (0:ℚ)), (2, 1)]
    (by simp) (by rw [e2u]; exact le_trans heps (by norm_num)) (by rw [e2v]; exact heps)
  exact ⟨(h1.2.2.1 (by rw [e10, e10v]; norm_num)).2.1,
    (h2.2.2.2 (by rw [e2u, e2v]; norm_num)).2.2.2.1⟩

end AutoUV

/-! ## Theorems: LSCM boundary detection and pinning -/

namespace AutoUV

lemma alookup_some_mem {β : Type} {m : List ((ℤ × ℤ) × β)} {key : ℤ × ℤ} {v : β}
    (h : m.lookup key = some v) : (key, v) ∈ m := by
  induction m with
  | nil => simp [List.lookup] at h
  | cons hd tl ih =>
    obtain ⟨k, val⟩ := hd
    by_cases hk : k = key
    · subst hk
      simp [List.lookup] at h
      exact h ▸ List.mem_cons_self _ _
    · have hb : (key == k) = false := beq_eq_false_iff_ne.mpr (Ne.symm hk)
      simp only [List.lookup, hb] at h
      exact List.mem_cons_of_mem _ (ih h)

lemma alookup_none_not_mem {β : Type} {m : List ((ℤ × ℤ) × β)} {key : ℤ × ℤ}
    (h : m.lookup key = none) : key ∉ m.map Prod.fst := by
  induction m with
  | nil => simp
  | cons hd tl ih =>
    obtain ⟨k, val⟩ := hd
    by_cases hk : k = key
    · subst hk
      simp [List.lookup] at h
    · have hb : (key == k) = false := beq_eq_false_iff_ne.mpr (Ne.symm hk)
      simp only [List.lookup, hb] at h
      simp only [List.map_cons, List.mem_cons, not_or]
      exact ⟨Ne.symm hk, ih h⟩

lemma alookup_of_mem_nodup {β : Type} {m : List ((ℤ × ℤ) × β)}
    (hnd : (m.map Prod.fst).Nodup) {kv : (ℤ × ℤ) × β} (h : kv ∈ m) :
    m.lookup kv.1 = some kv.2 := by
  induction m with
  | nil => cases h
  | cons hd tl ih =>
    obtain ⟨k, val⟩ := hd
    simp only [List.map_cons, List.nodup_cons] at hnd
    rcases List.mem_cons.1 h with rfl | htl
    · simp [List.lookup]
    · have hk : kv.1 ≠ k := by
        intro he
        exact hnd.1 (he ▸ List.mem_map.2 ⟨kv, htl, rfl⟩)
      have hb : (kv.1 == k) = false := beq_eq_false_iff_ne.mpr hk
      simp only [List.lookup, hb]
      exact ih hnd.2 htl

lemma bumpEdge_keys (m : List ((ℤ × ℤ) × ℕ)) (key : ℤ × ℤ) :
    (bumpEdge m key).map Prod.fst =
      if m.lookup key = none then m.map Prod.fst ++ [key] else m.map Prod.fst := by
  cases h : m.lookup key with
  | none => simp [bumpEdge, h]
  | some n =>
    simp only [bumpEdge, h, List.map_map]
    rw [if_neg (by simp)]
    refine List.map_congr_left ?_
    intro kv _
    by_cases hkv : kv.1 = key <;> simp [hkv]

lemma bumpEdge_mem_none {m : List ((ℤ × ℤ) × ℕ)} {key : ℤ × ℤ}
    (h : m.lookup key = none) (kv : (ℤ × ℤ) × ℕ) :
    kv ∈ bumpEdge m key ↔ kv ∈ m ∨ kv = (key, 1) := by
  simp [bumpEdge, h]

lemma bumpEdge_mem_some {m : List ((ℤ × ℤ) × ℕ)} {key : ℤ × ℤ} {n : ℕ}
    (hnd : (m.map Prod.fst).Nodup) (h : m.lookup key = some n) (kv : (ℤ × ℤ) × ℕ) :
    kv ∈ bumpEdge m key ↔ (kv ∈ m ∧ kv.1 ≠ key) ∨ kv = (key, n + 1) := by
  simp only [bumpEdge, h]
  constructor
  · intro hm
    rcases List.mem_map.1 hm with ⟨kv', hkv', hupd⟩
    by_cases hk : kv'.1 = key
    · right
      have hval : kv' = (key, n) := by
        have hl := alookup_of_mem_nodup hnd hkv'
        rw [hk, h] at hl
        have : kv'.2 = n := by
          injection hl.symm
        exact Prod.ext hk this
      rw [hval] at hupd
      simpa using hupd.symm
    · left
      rw [if_neg hk] at hupd
      exact hupd ▸ ⟨hkv', hk⟩
  · intro hm
    rcases hm with ⟨hkv, hk⟩ | rfl
    · exact List.mem_map.2 ⟨kv, hkv, by rw [if_neg hk]⟩
    · exact List.mem_map.2 ⟨(key, n), alookup_some_mem h, by simp⟩

/-- Invariant of the edge-count map: keys are distinct, and the map's
entries are exactly the processed keys paired with their occurrence
counts. -/
def CountInv (processed : List (ℤ × ℤ)) (m : List ((ℤ × ℤ) × ℕ)) : Prop :=
  (m.map Prod.fst).Nodup ∧
  ∀ kv : (ℤ × ℤ) × ℕ, kv ∈ m ↔ (kv.1 ∈ processed ∧ kv.2 = processed.count kv.1)

lemma count_append_single (processed : List (ℤ × ℤ)) (key k : ℤ × ℤ) :
    (processed ++ [key]).count k = processed.count k + if k = key then 1 else 0 := by
  rw [List.count_append]
  congr 1
  by_cases hk : k = key
  · subst hk
    simp
  · simp [List.count_cons, hk]

lemma countInv_step {processed : List (ℤ × ℤ)} {m : List ((ℤ × ℤ) × ℕ)} {key : ℤ × ℤ}
    (h : CountInv processed m) : CountInv (processed ++ [key]) (bumpEdge m key) := by
  obtain ⟨hnd, hmem⟩ := h
  cases hb : m.lookup key with
  | none =>
    have hkey_not : key ∉ processed := by
      intro hkp
      have hx : (key, processed.count key) ∈ m := (hmem _).2 ⟨hkp, rfl⟩
      exact alookup_none_not_mem hb (List.mem_map.2 ⟨_, hx, rfl⟩)
    have hc0 : processed.count key = 0 := List.count_eq_zero.2 hkey_not
    constructor
    · rw [bumpEdge_keys, if_pos hb]
      refine List.Nodup.append hnd (List.nodup_singleton key) ?_
      intro a ha hk
      rw [List.mem_singleton] at hk
      exact alookup_none_not_mem hb (hk ▸ ha)
    · intro kv
      rw [bumpEdge_mem_none hb, hmem kv]
      constructor
      · intro hx
        rcases hx with ⟨hp, hc⟩ | rfl
        · have hne : kv.1 ≠ key := fun he => hkey_not (he ▸ hp)
          exact ⟨List.mem_append.2 (Or.inl hp),
            by rw [count_append_single, if_neg hne, add_zero]; exact hc⟩
        · exact ⟨List.mem_append.2 (Or.inr (by simp)),
            by rw [count_append_single, if_pos rfl, hc0]⟩
      · rintro ⟨hp, hc⟩
        rcases List.mem_append.1 hp with hp | hp
        · left
          have hne : kv.1 ≠ key := fun he => hkey_not (he ▸ hp)
          rw [count_append_single, if_neg hne, add_zero] at hc
          exact ⟨hp, hc⟩
        · right
          simp only [List.mem_singleton] at hp
          rw [count_append_single, hp, if_pos rfl, hc0] at hc
          exact Prod.ext hp hc
  | some n =>
    have hkn : (key, n) ∈ m := alookup_some_mem hb
    obtain ⟨hkp, hnc⟩ := (hmem _).1 hkn
    constructor
    · rw [bumpEdge_keys, if_neg (by simp [hb])]
      exact hnd
    · intro kv
      rw [bumpEdge_mem_some hnd hb]
      constructor
      · intro hx
        rcases hx with ⟨hkv, hne⟩ | rfl
        · obtain ⟨hp, hc⟩ := (hmem kv).1 hkv
          exact ⟨List.mem_append.2 (Or.inl hp),
            by rw [count_append_single, if_neg hne, add_zero]; exact hc⟩
        · refine ⟨List.mem_append.2 (Or.inr (by simp)), ?_⟩
          rw [count_append_single, if_pos rfl, ← hnc]
      · rintro ⟨hp, hc⟩
        by_cases hke : kv.1 = key
        · right
          rw [count_append_single, hke, if_pos rfl] at hc
          refine Prod.ext hke ?_
          rw [hc, ← hnc]
        · left
          rw [count_append_single, if_neg hke, add_zero] at hc
          have hp' : kv.1 ∈ processed := by
            rcases List.mem_append.1 hp with hx | hx
            · exact hx
            · simp only [List.mem_singleton] at hx
              exact absurd hx hke
          exact ⟨(hmem kv).2 ⟨hp', hc⟩, hke⟩

lemma countInv_fold :
    ∀ (l : List (ℤ × ℤ)) (processed : List (ℤ × ℤ)) (m : List ((ℤ × ℤ) × ℕ)),
      CountInv processed m → CountInv (processed ++ l) (l.foldl bumpEdge m)
  | [], p, m, h => by simpa using h
  | hd :: tl, p, m, h => by
    rw [List.foldl_cons]
    have h2 := countInv_fold tl (p ++ [hd]) (bumpEdge m hd) (countInv_step h)
    rw [show p ++ hd :: tl = (p ++ [hd]) ++ tl by simp]
    exact h2

lemma islandEdgeCounts_inv (mesh : Mesh) (faces : List ℕ) :
    CountInv (islandKeys mesh faces) (islandEdgeCounts mesh faces) := by
  have h := countInv_fold (islandKeys mesh faces) [] []
    ⟨List.nodup_nil, fun kv => by simp⟩
  simpa [islandEdgeCounts] using h

end AutoUV

namespace AutoUV

lemma mem_setInsertZ (v x : ℤ) : ∀ s : List ℤ, v ∈ setInsertZ x s ↔ v = x ∨ v ∈ s
  | [] => by simp [setInsertZ]
  | y :: ys => by
    unfold setInsertZ
    by_cases h1 : x < y
    · simp [h1]
    · rw [if_neg h1]
      by_cases h2 : x = y
      · subst h2
        simp [lt_irrefl]
      · rw [if_neg h2]
        simp only [List.mem_cons, mem_setInsertZ v x ys]
        tauto

lemma setInsertZ_sorted (x : ℤ) : ∀ {s : List ℤ}, s.Sorted (· < ·) →
    (setInsertZ x s).Sorted (· < ·)
  | [], _ => by simp [setInsertZ]
  | y :: ys, hs => by
    rw [List.sorted_cons] at hs
    unfold setInsertZ
    by_cases h1 : x < y
    · rw [if_pos h1, List.sorted_cons]
      refine ⟨?_, List.sorted_cons.2 hs⟩
      intro b hb
      rcases List.mem_cons.1 hb with rfl | hbys
      · exact h1
      · exact lt_trans h1 (hs.1 b hbys)
    · rw [if_neg h1]
      by_cases h2 : x = y
      · rw [if_pos h2]
        exact List.sorted_cons.2 hs
      · rw [if_neg h2, List.sorted_cons]
        have hyx : y < x := lt_of_le_of_ne (not_lt.1 h1) (Ne.symm h2)
        refine ⟨?_, setInsertZ_sorted x hs.2⟩
        intro b hb
        rcases (mem_setInsertZ b x ys).1 hb with rfl | hbys
        · exact hyx
        · exact hs.1 b hbys

lemma boundary_fold_mem (v : ℤ) :
    ∀ (l : List ((ℤ × ℤ) × ℕ)) (s : List ℤ),
      v ∈ l.foldl (fun s kv => if kv.2 = 1 then setInsertZ kv.1.2 (setInsertZ kv.1.1 s) else s) s ↔
      v ∈ s ∨ ∃ kv ∈ l, kv.2 = 1 ∧ (v = kv.1.1 ∨ v = kv.1.2)
  | [], s => by simp
  | hd :: tl, s => by
    rw [List.foldl_cons, boundary_fold_mem v tl]
    by_cases h1 : hd.2 = 1
    · rw [if_pos h1]
      rw [mem_setInsertZ, mem_setInsertZ]
      constructor
      · intro hx
        rcases hx with (h | h | h) | ⟨kv, hkv, hx⟩
        · exact Or.inr ⟨hd, List.mem_cons_self hd tl, h1, Or.inr h⟩
        · exact Or.inr ⟨hd, List.mem_cons_self hd tl, h1, Or.inl h⟩
        · exact Or.inl h
        · exact Or.inr ⟨kv, List.mem_cons_of_mem hd hkv, hx⟩
      · intro hx
        rcases hx with h | ⟨kv, hkv, h2, hv⟩
        · exact Or.inl (Or.inr (Or.inr h))
        · rcases List.mem_cons.1 hkv with rfl | htl
          · rcases hv with hv | hv
            · exact Or.inl (Or.inr (Or.inl hv))
            · exact Or.inl (Or.inl hv)
          · exact Or.inr ⟨kv, htl, h2, hv⟩
    · rw [if_neg h1]
      constructor
      · intro hx
        rcases hx with h | ⟨kv, hkv, hx⟩
        · exact Or.inl h
        · exact Or.inr ⟨kv, List.mem_cons_of_mem hd hkv, hx⟩
      · intro hx
        rcases hx with h | ⟨kv, hkv, h2, hv⟩
        · exact Or.inl h
        · rcases List.mem_cons.1 hkv with rfl | htl
          · exact absurd h2 h1
          · exact Or.inr ⟨kv, htl, h2, hv⟩

lemma boundary_sorted (mesh : Mesh) (faces : List ℕ) :
    (find_boundary_vertices mesh faces).Sorted (· < ·) := by
  unfold find_boundary_vertices
  generalize islandEdgeCounts mesh faces = l
  have : ∀ (l : List ((ℤ × ℤ) × ℕ)) (s : List ℤ), s.Sorted (· < ·) →
      (l.foldl (fun s kv => if kv.2 = 1 then setInsertZ kv.1.2 (setInsertZ kv.1.1 s) else s)
        s).Sorted (· < ·) := by
    intro l
    induction l with
    | nil => exact fun s hs => hs
    | cons hd tl ih =>
      intro s hs
      rw [List.foldl_cons]
      refine ih _ ?_
      by_cases h1 : hd.2 = 1
      · rw [if_pos h1]
        exact setInsertZ_sorted _ (setInsertZ_sorted _ hs)
      · rw [if_neg h1]
        exact hs
  exact this l [] (List.sorted_nil)

lemma pairsOf_mem : ∀ {l : List ℤ} {a b : ℤ}, (a, b) ∈ pairsOf l → a ∈ l ∧ b ∈ l := by
  intro l
  induction l with
  | nil => intro a b h; cases h
  | cons x xs ih =>
    intro a b h
    rw [pairsOf, List.mem_append] at h
    rcases h with h | h
    · rcases List.mem_map.1 h with ⟨y, hy, he⟩
      injection he with h1 h2
      subst h1; subst h2
      exact ⟨List.mem_cons_self _ _, List.mem_cons_of_mem _ hy⟩
    · obtain ⟨ha, hb⟩ := ih h
      exact ⟨List.mem_cons_of_mem _ ha, List.mem_cons_of_mem _ hb⟩

lemma pairsOf_ne : ∀ {l : List ℤ}, l.Nodup → ∀ {a b : ℤ}, (a, b) ∈ pairsOf l → a ≠ b := by
  intro l
  induction l with
  | nil => intro _ a b h; cases h
  | cons x xs ih =>
    intro hnd a b h
    rw [List.nodup_cons] at hnd
    rw [pairsOf, List.mem_append] at h
    rcases h with h | h
    · rcases List.mem_map.1 h with ⟨y, hy, he⟩
      injection he with h1 h2
      subst h1; subst h2
      intro he
      exact hnd.1 (he ▸ hy)
    · exact ih hnd.2 h

lemma pairsOf_cover : ∀ {l : List ℤ} {a b : ℤ}, a ∈ l → b ∈ l → a ≠ b →
    (a, b) ∈ pairsOf l ∨ (b, a) ∈ pairsOf l := by
  intro l
  induction l with
  | nil => intro a b h; cases h
  | cons x xs ih =>
    intro a b ha hb hne
    rcases List.mem_cons.1 ha with rfl | ha'
    · have hb' : b ∈ xs := by
        rcases List.mem_cons.1 hb with rfl | h
        · exact absurd rfl hne
        · exact h
      left
      rw [pairsOf, List.mem_append]
      exact Or.inl (List.mem_map.2 ⟨b, hb', rfl⟩)
    · rcases List.mem_cons.1 hb with rfl | hb'
      · right
        rw [pairsOf, List.mem_append]
        exact Or.inl (List.mem_map.2 ⟨a, ha', rfl⟩)
      · rcases ih ha' hb' hne with h | h
        · left
          rw [pairsOf, List.mem_append]
          exact Or.inr h
        · right
          rw [pairsOf, List.mem_append]
          exact Or.inr h

lemma pairsOf_ne_nil : ∀ {l : List ℤ}, 2 ≤ l.length → pairsOf l ≠ [] := by
  intro l hl
  match l, hl with
  | x :: y :: t, _ =>
    rw [pairsOf]
    simp

lemma sqDist_nonneg (mesh : Mesh) (a b : ℤ) : 0 ≤ sqDist mesh a b :=
  add_nonneg (add_nonneg (mul_self_nonneg _) (mul_self_nonneg _)) (mul_self_nonneg _)

lemma sqDist_symm (mesh : Mesh) (a b : ℤ) : sqDist mesh a b = sqDist mesh b a := by
  unfold sqDist
  ring

lemma sqDist_self (mesh : Mesh) (a : ℤ) : sqDist mesh a a = 0 := by
  unfold sqDist
  ring

end AutoUV

namespace AutoUV

lemma matFromTriplets_zeroRow {pins : List ℕ} {i : ℕ} (hi : i ∈ pins) (j : ℕ) :
    ∀ (ts : List (ℕ × ℕ × ℚ)) (a : ℚ),
      (zeroPinnedRows ts pins).foldl
        (fun a t => if t.1 = i ∧ t.2.1 = j then a + t.2.2 else a) a = a
  | [], a => rfl
  | t :: rest, a => by
    rw [zeroPinnedRows, List.map_cons, List.foldl_cons]
    by_cases hp : t.1 ∈ pins
    · rw [if_pos hp]
      show (List.map (fun t => if t.1 ∈ pins then (t.1, t.2.1, (0:ℚ)) else t) rest).foldl
        (fun a t => if t.1 = i ∧ t.2.1 = j then a + t.2.2 else a)
        (if t.1 = i ∧ t.2.1 = j then a + 0 else a) = a
      by_cases hm : t.1 = i ∧ t.2.1 = j
      · rw [if_pos hm, add_zero]
        exact matFromTriplets_zeroRow hi j rest a
      · rw [if_neg hm]
        exact matFromTriplets_zeroRow hi j rest a
    · rw [if_neg hp]
      show (List.map (fun t => if t.1 ∈ pins then (t.1, t.2.1, (0:ℚ)) else t) rest).foldl
        (fun a t => if t.1 = i ∧ t.2.1 = j then a + t.2.2 else a)
        (if t.1 = i ∧ t.2.1 = j then a + t.2.2 else a) = a
      have hm : ¬ (t.1 = i ∧ t.2.1 = j) := fun hm => hp (hm.1 ▸ hi)
      rw [if_neg hm]
      exact matFromTriplets_zeroRow hi j rest a

lemma matFromTriplets_zeroRow_eq {pins : List ℕ} {i : ℕ} (hi : i ∈ pins) (j : ℕ)
    (ts : List (ℕ × ℕ × ℚ)) : matFromTriplets (zeroPinnedRows ts pins) i j = 0 :=
  matFromTriplets_zeroRow hi j ts 0

lemma matFromTriplets_otherRow {pins : List ℕ} {i : ℕ} (hi : i ∉ pins) (j : ℕ) :
    ∀ (ts : List (ℕ × ℕ × ℚ)) (a : ℚ),
      (zeroPinnedRows ts pins).foldl
        (fun a t => if t.1 = i ∧ t.2.1 = j then a + t.2.2 else a) a =
      ts.foldl (fun a t => if t.1 = i ∧ t.2.1 = j then a + t.2.2 else a) a
  | [], a => rfl
  | t :: rest, a => by
    rw [zeroPinnedRows, List.map_cons, List.foldl_cons, List.foldl_cons]
    by_cases hp : t.1 ∈ pins
    · rw [if_pos hp]
      show (List.map (fun t => if t.1 ∈ pins then (t.1, t.2.1, (0:ℚ)) else t) rest).foldl
        (fun a t => if t.1 = i ∧ t.2.1 = j then a + t.2.2 else a)
        (if t.1 = i ∧ t.2.1 = j then a + 0 else a) = _
      have hne : ¬ (t.1 = i ∧ t.2.1 = j) := fun hm => hi (hm.1 ▸ hp)
      rw [if_neg hne, if_neg hne]
      exact matFromTriplets_otherRow hi j rest a
    · rw [if_neg hp]
      exact matFromTriplets_otherRow hi j rest _

lemma matFromTriplets_otherRow_eq {pins : List ℕ} {i : ℕ} (hi : i ∉ pins) (j : ℕ)
    (ts : List (ℕ × ℕ × ℚ)) :
    matFromTriplets (zeroPinnedRows ts pins) i j = matFromTriplets ts i j :=
  matFromTriplets_otherRow hi j ts 0

end AutoUV

namespace AutoUV

/-- **C3.** Boundary detection and pinning of `lscm_parameterize`:
(1) the boundary vertices of an island are exactly the endpoints of
island edges used by exactly one island face; (2) with at least two
boundary vertices, the chosen pin pair consists of two distinct boundary
vertices whose squared 3D distance (equivalently, Euclidean distance) is
maximal over all boundary pairs, and the pins are their local indices;
(3) with fewer than two boundary vertices the local pins are `0` and `1`;
(4) pinning zeroes the four pinned matrix rows, writes unit diagonal
entries there, leaves all other rows untouched, and sets the right-hand
side to `0, 0, 1, 0` at the pinned indices (zero elsewhere), i.e. pin 1
goes to `(0, 0)` and pin 2 to `(1, 0)`. -/
theorem lscm_boundary_and_pinning (mesh : Mesh) (faces : List ℕ) :
    (∀ v : ℤ, v ∈ find_boundary_vertices mesh faces ↔
      ∃ key ∈ islandKeys mesh faces,
        (islandKeys mesh faces).count key = 1 ∧ (v = key.1 ∨ v = key.2)) ∧
    (2 ≤ (find_boundary_vertices mesh faces).length →
      ∃ b1 b2 : ℤ, b1 ∈ find_boundary_vertices mesh faces ∧
        b2 ∈ find_boundary_vertices mesh faces ∧ b1 ≠ b2 ∧
        pinPair mesh faces =
          ((islandVerts mesh faces).indexOf b1, (islandVerts mesh faces).indexOf b2) ∧
        ∀ a ∈ find_boundary_vertices mesh faces,
          ∀ b ∈ find_boundary_vertices mesh faces,
            sqDist mesh a b ≤ sqDist mesh b1 b2) ∧
    ((find_boundary_vertices mesh faces).length < 2 →
      2 ≤ (islandVerts mesh faces).length → pinPair mesh faces = (0, 1)) ∧
    (∀ (ts : List (ℕ × ℕ × ℚ)) (p1 p2 : ℕ), p1 ≠ p2 →
      (∀ i j : ℕ, pinnedMatrix ts p1 p2 i j =
        if i = 2 * p1 ∨ i = 2 * p1 + 1 ∨ i = 2 * p2 ∨ i = 2 * p2 + 1 then
          (if j = i then 1 else 0)
        else matFromTriplets ts i j) ∧
      (∀ i : ℕ, pinnedRhs p1 p2 i = if i = 2 * p2 then 1 else 0)) := by
  refine ⟨?_, ?_, ?_, ?_⟩
  · intro v
    unfold find_boundary_vertices
    rw [boundary_fold_mem]
    simp only [List.not_mem_nil, false_or]
    have hinv := islandEdgeCounts_inv mesh faces
    constructor
    · rintro ⟨kv, hkv, h1, hv⟩
      obtain ⟨hp, hc⟩ := (hinv.2 kv).1 hkv
      exact ⟨kv.1, hp, by rw [← hc, h1], hv⟩
    · rintro ⟨key, hkey, hcount, hv⟩
      exact ⟨(key, 1), (hinv.2 (key, 1)).2 ⟨hkey, hcount.symm⟩, rfl, hv⟩
  · intro h2
    have hsorted := boundary_sorted mesh faces
    have hnd : (find_boundary_vertices mesh faces).Nodup :=
      hsorted.imp fun h => ne_of_lt h
    obtain ⟨hb1, _, hb3⟩ := bestFold_spec (fun pr : ℤ × ℤ => sqDist mesh pr.1 pr.2)
      (pairsOf (find_boundary_vertices mesh faces)) (none, -1)
    have hpairs_ne := pairsOf_ne_nil h2
    obtain ⟨e0, he0⟩ := List.exists_mem_of_ne_nil _ hpairs_ne
    rcases hb1 with hfix | ⟨bpr, hbpr, heq⟩
    · have := hb3 e0 he0
      rw [hfix] at this
      have := le_trans (sqDist_nonneg mesh e0.1 e0.2) this
      norm_num at this
    · have hmax : ∀ e ∈ pairsOf (find_boundary_vertices mesh faces),
          sqDist mesh e.1 e.2 ≤ sqDist mesh bpr.1 bpr.2 := by
        intro e he
        have := hb3 e he
        rw [heq] at this
        exact this
      obtain ⟨hm1, hm2⟩ := pairsOf_mem hbpr
      refine ⟨bpr.1, bpr.2, hm1, hm2, pairsOf_ne hnd hbpr, ?_, ?_⟩
      · unfold pinPair
        rw [if_pos h2, heq]
      · intro a ha b hb
        by_cases hab : a = b
        · rw [hab, sqDist_self]
          exact le_trans (sqDist_nonneg mesh bpr.1 bpr.2) (le_refl _)
        · rcases pairsOf_cover ha hb hab with h | h
          · exact hmax (a, b) h
          · rw [sqDist_symm]
            exact hmax (b, a) h
  · intro hlt hn
    unfold pinPair
    rw [if_neg (not_le.mpr hlt)]
    have : (0 + 1) % (islandVerts mesh faces).length = 1 :=
      Nat.mod_eq_of_lt (by omega)
    rw [this]
  · intro ts p1 p2 hne
    constructor
    · intro i j
      by_cases hi : i = 2 * p1 ∨ i = 2 * p1 + 1 ∨ i = 2 * p2 ∨ i = 2 * p2 + 1
      · rw [if_pos hi]
        by_cases hj : j = i
        · subst hj
          rw [if_pos rfl]
          unfold pinnedMatrix setDiagOne
          rcases hi with h | h | h | h
          · subst h
            rw [if_neg (by omega), if_neg (by omega), if_neg (by omega),
              if_pos ⟨rfl, rfl⟩]
          · subst h
            rw [if_neg (by omega), if_neg (by omega), if_pos ⟨rfl, rfl⟩]
          · subst h
            rw [if_neg (by omega), if_pos ⟨rfl, rfl⟩]
          · subst h
            rw [if_pos ⟨rfl, rfl⟩]
        · rw [if_neg hj]
          unfold pinnedMatrix setDiagOne
          have hcond : ∀ idx : ℕ, ¬ (i = idx ∧ j = idx) := by
            intro idx hx
            exact hj (hx.2.trans hx.1.symm)
          rw [if_neg (hcond _), if_neg (hcond _), if_neg (hcond _), if_neg (hcond _)]
          refine matFromTriplets_zeroRow_eq ?_ j ts
          simpa [pinnedIdx] using hi
      · rw [if_neg hi]
        push_neg at hi
        obtain ⟨n1, n2, n3, n4⟩ := hi
        unfold pinnedMatrix setDiagOne
        rw [if_neg (fun hx => n4 hx.1), if_neg (fun hx => n3 hx.1),
          if_neg (fun hx => n2 hx.1), if_neg (fun hx => n1 hx.1)]
        refine matFromTriplets_otherRow_eq ?_ j ts
        simp only [pinnedIdx, List.mem_cons, List.not_mem_nil, or_false, not_or]
        exact ⟨n1, n2, n3, n4⟩
    · intro i
      unfold pinnedRhs writeVec
      split_ifs <;> first | rfl | (exfalso; omega)

/-- Witness for `lscm_boundary_and_pinning`: on the one-triangle island
the boundary is all three vertices and a farthest pair is pinned; on the
degenerate-triangle island only one boundary vertex exists and the pins
fall back to locals `0, 1`; a concrete pinned system has the stated
shape. -/
theorem lscm_boundary_and_pinning_witness :
    (∃ key ∈ islandKeys meshOneTri [0],
      (islandKeys meshOneTri [0]).count key = 1 ∧ ((0:ℤ) = key.1 ∨ (0:ℤ) = key.2)) ∧
    pinPair meshDegenTri [0] = (0, 1) ∧
    pinnedMatrix [(0, 0, 5)] 0 1 0 0 = 1 := by
  have h1 := lscm_boundary_and_pinning meshOneTri [0]
  have h2 := lscm_boundary_and_pinning meshDegenTri [0]
  have h3 := lscm_boundary_and_pinning meshOneTri []
  refine ⟨(h1.1 0).1 (by decide), h2.2.2.1 (by decide) (by decide), ?_⟩
  have := (h3.2.2.2 [(0, 0, 5)] 0 1 (by decide)).1 0 0
  rw [this]
  norm_num

end AutoUV

namespace AutoUV

/-! ## C8 machinery: failure isolation of the per-island loop -/

lemma mem_addVerts {v : ℤ} : ∀ (gs : List ℤ) (l : List ℤ),
    v ∈ gs.foldl (fun l2 g => if g ∈ l2 then l2 else l2 ++ [g]) l →
    v ∈ l ∨ v ∈ gs := by
  intro gs
  induction gs with
  | nil => intro l h; exact Or.inl h
  | cons g gs ih =>
    intro l h
    simp only [List.foldl_cons] at h
    rcases ih _ h with h2 | h2
    · by_cases hg : g ∈ l
      · rw [if_pos hg] at h2
        exact Or.inl h2
      · rw [if_neg hg] at h2
        rcases List.mem_append.1 h2 with h3 | h3
        · exact Or.inl h3
        · simp only [List.mem_singleton] at h3
          subst h3
          exact Or.inr (List.mem_cons_self _ _)
    · exact Or.inr (List.mem_cons_of_mem _ h2)

lemma mem_islandVerts_exists {mesh : Mesh} {v : ℤ} : ∀ (faces : List ℕ) (l : List ℤ),
    v ∈ faces.foldl
      (fun l f => (triVerts mesh f).foldl (fun l2 g => if g ∈ l2 then l2 else l2 ++ [g]) l)
      l →
    v ∈ l ∨ ∃ f ∈ faces, v ∈ triVerts mesh f := by
  intro faces
  induction faces with
  | nil => intro l h; exact Or.inl h
  | cons f fl ih =>
    intro l h
    simp only [List.foldl_cons] at h
    rcases ih _ h with h2 | ⟨f2, hf2, hv2⟩
    · rcases mem_addVerts _ _ h2 with h3 | h3
      · exact Or.inl h3
      · exact Or.inr ⟨f, List.mem_cons_self _ _, h3⟩
    · exact Or.inr ⟨f2, List.mem_cons_of_mem _ hf2, hv2⟩

lemma mem_islandVerts_triVerts {mesh : Mesh} {faces : List ℕ} {v : ℤ}
    (h : v ∈ islandVerts mesh faces) : ∃ f ∈ faces, v ∈ triVerts mesh f := by
  unfold islandVerts at h
  rcases mem_islandVerts_exists faces [] h with h2 | h2
  · simp at h2
  · exact h2

lemma copyInner_preserve {mesh : Mesh} {faces : List ℕ} {iuvs : List (ℚ × ℚ)} {v : ℤ}
    (hv : v ∉ islandVerts mesh faces) :
    ∀ (gs : List ℤ) (u : ℤ → ℚ × ℚ),
      (gs.foldl
        (fun u2 g =>
          if g ∈ islandVerts mesh faces then
            fun w => if w = g then iuvs.getD ((islandVerts mesh faces).indexOf g) (0, 0) else u2 w
          else u2)
        u) v = u v := by
  intro gs
  induction gs with
  | nil => intro u; rfl
  | cons g gs ih =>
    intro u
    simp only [List.foldl_cons]
    rw [ih]
    by_cases hg : g ∈ islandVerts mesh faces
    · rw [if_pos hg]
      have hvg : v ≠ g := fun h => hv (h ▸ hg)
      show (if v = g then iuvs.getD ((islandVerts mesh faces).indexOf g) (0, 0) else u v) = u v
      exact if_neg hvg
    · rw [if_neg hg]

lemma copyOuter_preserve {mesh : Mesh} {faces : List ℕ} {iuvs : List (ℚ × ℚ)} {v : ℤ}
    (hv : v ∉ islandVerts mesh faces) :
    ∀ (fl : List ℕ) (uvs : ℤ → ℚ × ℚ),
      (fl.foldl
        (fun u f =>
          (triVerts mesh f).foldl
            (fun u2 g =>
              if g ∈ islandVerts mesh faces then
                fun w =>
                  if w = g then iuvs.getD ((islandVerts mesh faces).indexOf g) (0, 0) else u2 w
              else u2)
            u)
        uvs) v = uvs v := by
  intro fl
  induction fl with
  | nil => intro uvs; rfl
  | cons f fl ih =>
    intro uvs
    simp only [List.foldl_cons]
    rw [ih]
    exact copyInner_preserve hv _ _

lemma copyIslandUVs_preserve {mesh : Mesh} {faces : List ℕ} {iuvs : List (ℚ × ℚ)}
    {uvs : ℤ → ℚ × ℚ} {v : ℤ} (hv : v ∉ islandVerts mesh faces) :
    copyIslandUVs mesh faces iuvs uvs v = uvs v := by
  unfold copyIslandUVs
  exact copyOuter_preserve hv faces uvs

lemma processIsland_none_id {mesh : Mesh} {ids : ℤ → ℤ} {minFaces : ℤ}
    {paramFn : List ℕ → Option (List (ℚ × ℚ))} {k : ℕ}
    (hk : paramFn (islandFaces mesh ids k) = none) (uvs : ℤ → ℚ × ℚ) :
    processIsland mesh ids minFaces paramFn uvs k = uvs := by
  unfold processIsland
  rw [hk]
  split <;> rfl

lemma processIsland_apply_eq {mesh : Mesh} {ids : ℤ → ℤ} {minFaces : ℤ}
    {paramFn : List ℕ → Option (List (ℚ × ℚ))} {k : ℕ} {v : ℤ}
    (h : paramFn (islandFaces mesh ids k) = none ∨ v ∉ islandVerts mesh (islandFaces mesh ids k))
    (uvs : ℤ → ℚ × ℚ) :
    processIsland mesh ids minFaces paramFn uvs k v = uvs v := by
  unfold processIsland
  by_cases hsmall : ((islandFaces mesh ids k).length : ℤ) < minFaces
  · rw [if_pos hsmall]
  · rw [if_neg hsmall]
    cases hp : paramFn (islandFaces mesh ids k) with
    | none => rfl
    | some iuvs =>
      rcases h with h | h
      · rw [hp] at h
        exact absurd h (by simp)
      · exact copyIslandUVs_preserve h

lemma foldl_filter_of_id {β : Type} (g : β → ℕ → β) (k : ℕ)
    (hid : ∀ acc, g acc k = acc) :
    ∀ (l : List ℕ) (init : β),
      l.foldl g init = (l.filter fun x => decide (x ≠ k)).foldl g init := by
  intro l
  induction l with
  | nil => intro init; rfl
  | cons a tl ih =>
    intro init
    by_cases ha : a = k
    · rw [List.foldl_cons, ha, hid]
      have hf : (k :: tl).filter (fun x => decide (x ≠ k)) =
          tl.filter (fun x => decide (x ≠ k)) := by
        simp [List.filter_cons]
      rw [hf]
      exact ih init
    · have hf : (a :: tl).filter (fun x => decide (x ≠ k)) =
          a :: tl.filter (fun x => decide (x ≠ k)) := by
        simp [List.filter_cons, ha]
      rw [hf, List.foldl_cons, List.foldl_cons]
      exact ih (g init a)

lemma processFold_zero {mesh : Mesh} {ids : ℤ → ℤ} {minFaces : ℤ}
    {paramFn : List ℕ → Option (List (ℚ × ℚ))} {k : ℕ} {v : ℤ}
    (hk : paramFn (islandFaces mesh ids k) = none)
    (hv : ∀ f ∈ List.range mesh.triangles.length, v ∈ triVerts mesh f → ids (f : ℤ) = (k : ℤ)) :
    ∀ (l : List ℕ) (uvs : ℤ → ℚ × ℚ),
      (l.foldl (processIsland mesh ids minFaces paramFn) uvs) v = uvs v := by
  intro l
  induction l with
  | nil => intro uvs; rfl
  | cons j tl ih =>
    intro uvs
    rw [List.foldl_cons, ih]
    apply processIsland_apply_eq _ uvs
    by_cases hj : j = k
    · subst hj
      exact Or.inl hk
    · right
      intro hmem
      obtain ⟨f, hf, hvf⟩ := mem_islandVerts_triVerts hmem
      simp only [islandFaces, List.mem_filter, decide_eq_true_eq] at hf
      have hkf : ids (f : ℤ) = (k : ℤ) := hv f hf.1 hvf
      exact hj (Nat.cast_injective (hf.2.symm.trans hkf))

end AutoUV

namespace AutoUV

/-- **C8.** A per-island parameterization failure is isolated:
`lscm_parameterize` returns the failure signal `none` for an empty face
list, for an island with fewer than 3 distinct vertices, and whenever the
linear solve fails; in the STEP-4 loop a failed island is a no-op, so the
loop equals the same loop run over the remaining islands only (no retry),
and every vertex whose faces all lie in the failed island keeps its
default zero UVs. -/
theorem lscm_failure_isolated (mesh : Mesh) :
    (∀ (frame : (ℚ × ℚ × ℚ) → (ℚ × ℚ × ℚ) → (ℚ × ℚ × ℚ) → ((ℚ × ℚ) × (ℚ × ℚ)))
        (solver : (ℕ → ℕ → ℚ) → (ℕ → ℚ) → ℕ → Option (ℕ → ℚ)) (faces : List ℕ),
      faces = [] ∨ (islandVerts mesh faces).length < 3 →
      lscm_parameterize frame solver mesh faces = none) ∧
    (∀ (frame : (ℚ × ℚ × ℚ) → (ℚ × ℚ × ℚ) → (ℚ × ℚ × ℚ) → ((ℚ × ℚ) × (ℚ × ℚ)))
        (solver : (ℕ → ℕ → ℚ) → (ℕ → ℚ) → ℕ → Option (ℕ → ℚ)) (faces : List ℕ),
      solver
          (pinnedMatrix (assembleTriplets frame mesh faces)
            (pinPair mesh faces).1 (pinPair mesh faces).2)
          (pinnedRhs (pinPair mesh faces).1 (pinPair mesh faces).2)
          (2 * (islandVerts mesh faces).length) = none →
      lscm_parameterize frame solver mesh faces = none) ∧
    (∀ (ids : ℤ → ℤ) (numIslands : ℕ) (minFaces : ℤ)
        (paramFn : List ℕ → Option (List (ℚ × ℚ))) (k : ℕ),
      paramFn (islandFaces mesh ids k) = none →
      (processIslands mesh ids numIslands minFaces paramFn =
        ((List.range numIslands).filter fun j => decide (j ≠ k)).foldl
          (processIsland mesh ids minFaces paramFn) (fun _ => (0, 0))) ∧
      ∀ v : ℤ,
        (∀ f ∈ List.range mesh.triangles.length, v ∈ triVerts mesh f → ids (f : ℤ) = (k : ℤ)) →
        processIslands mesh ids numIslands minFaces paramFn v = (0, 0)) := by
  refine ⟨?_, ?_, ?_⟩
  · rintro frame solver faces (h | h)
    · subst h
      rfl
    · unfold lscm_parameterize
      by_cases hf : faces = []
      · rw [if_pos hf]
      · rw [if_neg hf, if_pos h]
  · intro frame solver faces hs
    unfold lscm_parameterize
    by_cases hf : faces = []
    · rw [if_pos hf]
    · rw [if_neg hf]
      by_cases h3 : (islandVerts mesh faces).length < 3
      · rw [if_pos h3]
      · rw [if_neg h3, hs]
  · intro ids numIslands minFaces paramFn k hk
    constructor
    · unfold processIslands
      exact foldl_filter_of_id (processIsland mesh ids minFaces paramFn) k
        (processIsland_none_id hk) (List.range numIslands) _
    · intro v hv
      unfold processIslands
      exact processFold_zero hk hv (List.range numIslands) (fun _ => (0, 0))

/-- Witness for `lscm_failure_isolated`: on the two-triangle mesh with a
universally failing island parameterizer, an empty island yields `none`,
and vertex `5` (used only by island `1`'s face) ends the loop with zero
UVs. -/
theorem lscm_failure_isolated_witness :
    lscm_parameterize (fun _ _ _ => ((0, 0), (0, 0))) (fun _ _ _ => none) meshTwoTri [] =
      none ∧
    processIslands meshTwoTri (fun f => if f = 0 then 0 else 1) 2 0 (fun _ => none) 5 =
      (0, 0) := by
  refine ⟨(lscm_failure_isolated meshTwoTri).1 (fun _ _ _ => ((0, 0), (0, 0)))
    (fun _ _ _ => none) [] (Or.inl rfl), ?_⟩
  exact ((lscm_failure_isolated meshTwoTri).2.2 (fun f => if f = 0 then 0 else 1) 2 0
    (fun _ => none) 1 rfl).2 5 (by decide)

end AutoUV

namespace AutoUV

/-! ## C10 machinery: the final rescale touches every vertex -/

lemma packInner_seen_eq {v : ℤ} {off : ℚ × ℚ} :
    ∀ (gs : List ℤ), v ∉ gs → ∀ (sv : (ℤ → Bool) × (ℤ → ℚ × ℚ)),
      (gs.foldl
        (fun (sv2 : (ℤ → Bool) × (ℤ → ℚ × ℚ)) (g : ℤ) =>
          if sv2.1 g = true then sv2
          else
            (fun w => if w = g then true else sv2.1 w,
             fun w => if w = g then off else sv2.2 w))
        sv).1 v = sv.1 v := by
  intro gs
  induction gs with
  | nil => intro _ sv; rfl
  | cons g gs ih =>
    intro hv sv
    have hvg : v ≠ g := fun h => hv (h ▸ List.mem_cons_self g gs)
    simp only [List.foldl_cons]
    rw [ih (fun h => hv (List.mem_cons_of_mem _ h))]
    by_cases hg : sv.1 g = true
    · rw [if_pos hg]
    · rw [if_neg hg]
      show (if v = g then true else sv.1 v) = sv.1 v
      exact if_neg hvg

lemma packOuter_seen_eq {mesh : Mesh} {ids : ℤ → ℤ} {bounds : ℕ → Option (ℚ × ℚ × ℚ × ℚ)}
    {targets : ℕ → ℚ × ℚ} {v : ℤ} :
    ∀ (fl : List ℕ), (∀ f ∈ fl, v ∈ triVerts mesh f → ids (f : ℤ) < 0) →
    ∀ (sv : (ℤ → Bool) × (ℤ → ℚ × ℚ)),
      (fl.foldl
        (fun (sv : (ℤ → Bool) × (ℤ → ℚ × ℚ)) (f : ℕ) =>
          if 0 ≤ ids (f : ℤ) then
            (triVerts mesh f).foldl
              (fun sv2 g =>
                if sv2.1 g = true then sv2
                else
                  (fun w => if w = g then true else sv2.1 w,
                   fun w => if w = g then packOff bounds targets (ids (f : ℤ)).toNat
                     else sv2.2 w))
              sv
          else sv)
        sv).1 v = sv.1 v := by
  intro fl
  induction fl with
  | nil => intro _ sv; rfl
  | cons f fl ih =>
    intro hv sv
    simp only [List.foldl_cons]
    rw [ih (fun f2 hf2 => hv f2 (List.mem_cons_of_mem _ hf2))]
    by_cases h0 : 0 ≤ ids (f : ℤ)
    · rw [if_pos h0]
      apply packInner_seen_eq (triVerts mesh f) ?_ sv
      intro hmem
      exact absurd (hv f (List.mem_cons_self _ _) hmem) (not_lt.mpr h0)
    · rw [if_neg h0]

lemma packSeen_false {mesh : Mesh} {ids : ℤ → ℤ} {bounds : ℕ → Option (ℚ × ℚ × ℚ × ℚ)}
    {targets : ℕ → ℚ × ℚ} {v : ℤ}
    (hv : ∀ f ∈ List.range mesh.triangles.length, v ∈ triVerts mesh f → ids (f : ℤ) < 0) :
    (packSeenOffs mesh ids bounds targets).1 v = false := by
  unfold packSeenOffs
  exact packOuter_seen_eq (List.range mesh.triangles.length) hv _

lemma packOffsetUVs_unseen {sqrtQ : ℚ → ℚ} {mesh : Mesh} {ids : ℤ → ℤ} {numIslands : ℕ}
    {margin : ℚ} {uvs : ℤ → ℚ × ℚ} {v : ℤ}
    (hv : ∀ f ∈ List.range mesh.triangles.length, v ∈ triVerts mesh f → ids (f : ℤ) < 0) :
    packOffsetUVs sqrtQ mesh ids numIslands margin uvs v = uvs v := by
  unfold packOffsetUVs
  have hs := @packSeen_false mesh ids (packBounds mesh ids numIslands uvs)
    ((packState sqrtQ mesh ids numIslands margin uvs).targets) v hv
  have hcnot : ¬(0 ≤ v ∧ v < mesh.numVertices ∧
      (packSeenOffs mesh ids (packBounds mesh ids numIslands uvs)
        (packState sqrtQ mesh ids numIslands margin uvs).targets).1 v = true) := by
    rintro ⟨-, -, hcon⟩
    rw [hs] at hcon
    exact Bool.false_ne_true hcon
  rw [if_neg hcnot]

/-- **C10.** With more than one island, the packer's final uniform
rescale is applied to every in-range vertex of the mesh: the output UV of
each vertex `0 ≤ v < V` is the scale times its offset-stage UV; in
particular a vertex referenced by no face of non-negative island id is
never offset, yet its UVs are still multiplied by the scale, which equals
`1 / max(packed width, packed height)` whenever that maximum exceeds
`1e-6`.  With at most one island the packer is the identity. -/
theorem pack_islands_rescales_every_vertex (sqrtQ : ℚ → ℚ) (mesh : Mesh) (ids : ℤ → ℤ)
    (numIslands : ℕ) (margin : ℚ) (uvs : ℤ → ℚ × ℚ) :
    (2 ≤ numIslands →
      (∀ v : ℤ, 0 ≤ v → v < mesh.numVertices →
        pack_uv_islands sqrtQ mesh ids numIslands margin uvs v =
          (packScale sqrtQ mesh ids numIslands margin uvs *
             (packOffsetUVs sqrtQ mesh ids numIslands margin uvs v).1,
           packScale sqrtQ mesh ids numIslands margin uvs *
             (packOffsetUVs sqrtQ mesh ids numIslands margin uvs v).2)) ∧
      (∀ v : ℤ, 0 ≤ v → v < mesh.numVertices →
        (∀ f ∈ List.range mesh.triangles.length, v ∈ triVerts mesh f → ids (f : ℤ) < 0) →
        pack_uv_islands sqrtQ mesh ids numIslands margin uvs v =
          (packScale sqrtQ mesh ids numIslands margin uvs * (uvs v).1,
           packScale sqrtQ mesh ids numIslands margin uvs * (uvs v).2))) ∧
    (mkRat 1 1000000 < packMaxDim sqrtQ mesh ids numIslands margin uvs →
      packScale sqrtQ mesh ids numIslands margin uvs =
        1 / packMaxDim sqrtQ mesh ids numIslands margin uvs) ∧
    (numIslands ≤ 1 →
      ∀ v : ℤ, pack_uv_islands sqrtQ mesh ids numIslands margin uvs v = uvs v) := by
  refine ⟨?_, ?_, ?_⟩
  · intro h2
    constructor
    · intro v hv0 hvV
      unfold pack_uv_islands
      rw [if_neg (by omega), if_pos ⟨hv0, hvV⟩]
    · intro v hv0 hvV hnone
      unfold pack_uv_islands
      rw [if_neg (by omega), if_pos ⟨hv0, hvV⟩, packOffsetUVs_unseen hnone]
  · intro h
    unfold packScale
    rw [if_pos h]
  · intro h v
    unfold pack_uv_islands
    rw [if_pos h]

/-- Witness for `pack_islands_rescales_every_vertex`: on the two-triangle
mesh with face `0` in island `0` and face `1` unassigned, vertex `5`
belongs to no placed island yet still gets the final scale applied to its
input UV. -/
theorem pack_islands_rescales_every_vertex_witness :
    pack_uv_islands (fun q => q) meshTwoTri (fun f => if f = 0 then 0 else -1) 2 0
        (fun _ => (mkRat 1 2, mkRat 1 2)) 5 =
      (packScale (fun q => q) meshTwoTri (fun f => if f = 0 then 0 else -1) 2 0
          (fun _ => (mkRat 1 2, mkRat 1 2)) * mkRat 1 2,
       packScale (fun q => q) meshTwoTri (fun f => if f = 0 then 0 else -1) 2 0
          (fun _ => (mkRat 1 2, mkRat 1 2)) * mkRat 1 2) := by
  exact ((pack_islands_rescales_every_vertex (fun q => q) meshTwoTri
      (fun f => if f = 0 then 0 else -1) 2 0 (fun _ => (mkRat 1 2, mkRat 1 2))).1
      (by decide)).2 5 (by decide) (by decide) (by decide)

end AutoUV
